import Mathlib

/-!
# Elliptics network I/O pool (`library/pool.c`)

A shallow embedding of the receive state machine, the reactor's per-descriptor
loop, the shared inbound queue and the shutdown path of `library/pool.c`,
together with the properties established about them.

Conventions

* C pointers are natural numbers, `0` is `NULL`.
* `uint64_t` arithmetic is carried out on `Nat` with an explicit `% 2 ^ 64`.
* Loops that the C code runs without a syntactic bound (`goto again`,
  `while (1)`, list traversals) take a fuel argument; running out of fuel is
  `none`, and the theorems give the amount of fuel that is enough.
-/

namespace Elliptics

/-! ## Intrusive lists -/

/-- Link fields of every `struct list_head` in memory, indexed by the address
of the `list_head`. An object that embeds a `list_head` is identified with the
address of that member (the `list_entry` / `container_of` step is the
identity). -/
structure Links where
  next : Nat → Nat
  prev : Nat → Nat

/-- Pointwise store into one link field. -/
def upd (f : Nat → Nat) (a v : Nat) : Nat → Nat :=
  fun x => if x = a then v else f x

/-- Store `entry->next = v`. -/
def Links.setNext (l : Links) (entry v : Nat) : Links :=
  { l with next := upd l.next entry v }

/-- Store `entry->prev = v`. -/
def Links.setPrev (l : Links) (entry v : Nat) : Links :=
  { l with prev := upd l.prev entry v }

/-- Poison value stored in `next` by `list_del`. -/
def LIST_POISON1 : Nat := 0x00100100

/-- Poison value stored in `prev` by `list_del`. -/
def LIST_POISON2 : Nat := 0x00200200

/-- Modelled from the spec: `INIT_LIST_HEAD` of the absent `list.h` header
(section 9, "intrusive linked-list queues"): the list head points at itself. -/
def INIT_LIST_HEAD (list : Nat) (l : Links) : Links :=
  (l.setNext list list).setPrev list list

/-- Modelled from the spec: `__list_add` of the absent `list.h` header
(section 9, pointer splicing of an intrusive list): insert `new` between the
two consecutive entries `prev` and `next`. -/
def __list_add (new prev next : Nat) (l : Links) : Links :=
  (((l.setPrev next new).setNext new next).setPrev new prev).setNext prev new

/-- Modelled from the spec: `list_add_tail` of the absent `list.h` header
(section 4.4, the inbound queue is a FIFO: insertion before the head). -/
def list_add_tail (new head : Nat) (l : Links) : Links :=
  __list_add new (l.prev head) head l

/-- Modelled from the spec: `__list_del` of the absent `list.h` header
(section 9, pointer splicing): make `prev` and `next` point at each other. -/
def __list_del (prev next : Nat) (l : Links) : Links :=
  (l.setPrev next prev).setNext prev next

/-- Modelled from the spec: `list_del` of the absent `list.h` header: unlink
the entry and poison its own link fields. -/
def list_del (entry : Nat) (l : Links) : Links :=
  (((__list_del (l.prev entry) (l.next entry) l).setNext entry LIST_POISON1).setPrev
    entry LIST_POISON2)

/-- Modelled from the spec: `list_del_init` of the absent `list.h` header:
unlink the entry and make it an empty list of its own. -/
def list_del_init (entry : Nat) (l : Links) : Links :=
  INIT_LIST_HEAD entry (__list_del (l.prev entry) (l.next entry) l)

/-- Modelled from the spec: `list_empty` of the absent `list.h` header. -/
def list_empty (head : Nat) (l : Links) : Bool :=
  l.next head == head

/-- Modelled from the spec: `list_first_entry` of the absent `list.h`
header. -/
def list_first_entry (head : Nat) (l : Links) : Nat :=
  l.next head

/-- A chain of pointers `a -> x1 -> ... -> xn -> b` through the field `f`. -/
def Path (f : Nat → Nat) : Nat → List Nat → Nat → Prop
  | a, [], b => f a = b
  | a, x :: xs, b => f a = x ∧ Path f x xs b

instance Path.decide (f : Nat → Nat) : ∀ a xs b, Decidable (Path f a xs b)
  | a, [], b => inferInstanceAs (Decidable (f a = b))
  | a, x :: xs, b =>
    have := Path.decide f x xs b
    inferInstanceAs (Decidable (f a = x ∧ Path f x xs b))

/-- The list headed at `head` holds exactly the entries `xs`, in this order:
a circular doubly-linked list without repetition. -/
def IsQueue (l : Links) (head : Nat) (xs : List Nat) : Prop :=
  (head :: xs).Nodup ∧ Path l.next head xs head ∧ Path l.prev head xs.reverse head

instance IsQueue.decide (l : Links) (head : Nat) (xs : List Nat) :
    Decidable (IsQueue l head xs) :=
  inferInstanceAs (Decidable (_ ∧ _ ∧ _))

/-! ## The shared inbound queue (`dnet_schedule_io`, `dnet_io_process_pool`) -/

/-- The function `dnet_schedule_io` (pool.c 29-41), the locked section: the request is
linked at the tail of `io->recv_list`. -/
def dnet_schedule_io (recv_list r : Nat) (l : Links) : Links :=
  list_add_tail r recv_list l

/-- The function `dnet_io_process_pool` (pool.c 388-401), the locked section that picks a
request: the head of `io->recv_list` when it is not empty, unlinked with
`list_del_init`. The check after `pthread_cond_timedwait` (393-396) is the same
test, made again once the lock is held again. -/
def pool_take (recv_list : Nat) (l : Links) : Option Nat × Links :=
  if !list_empty recv_list l then
    let r := list_first_entry recv_list l
    (some r, list_del_init r l)
  else
    (none, l)

/-- The function `dnet_io_process_pool` (pool.c 413-415), the second locked section: the
request that was processed is removed a second time with `list_del`. -/
def pool_release (r : Nat) (l : Links) : Links :=
  list_del r l

/-- One atomic (lock-protected) step on the inbound queue. -/
inductive QueueOp where
  | push (r : Nat)
  | take (worker : Nat)
  | release (worker : Nat)
  deriving DecidableEq

/-- State of the inbound queue and of the workers around it. -/
structure PoolState where
  links : Links
  holding : Nat → Option Nat
  dequeued : List Nat
  freed : List Nat

/-- State after `dnet_io_init`: `INIT_LIST_HEAD(&io->recv_list)`, no worker
holds a request. -/
def PoolState.init (recv_list : Nat) : PoolState :=
  { links := INIT_LIST_HEAD recv_list ⟨fun _ => 0, fun _ => 0⟩
    holding := fun _ => none
    dequeued := []
    freed := [] }

/-- One step of the interleaving. A worker runs its loop body in order: it
takes a request only when it holds none, and it releases (and frees) only the
request it took. -/
def pool_step (recv_list : Nat) (s : PoolState) : QueueOp → PoolState
  | .push r => { s with links := dnet_schedule_io recv_list r s.links }
  | .take w =>
    match s.holding w with
    | some _ => s
    | none =>
      match pool_take recv_list s.links with
      | (some r, l) =>
        { s with links := l
                 holding := fun v => if v = w then some r else s.holding v
                 dequeued := s.dequeued ++ [r] }
      | (none, l) => { s with links := l }
  | .release w =>
    match s.holding w with
    | none => s
    | some r =>
      { s with links := pool_release r s.links
               holding := fun v => if v = w then none else s.holding v
               freed := s.freed ++ [r] }

/-- Run a sequential interleaving of queue operations. -/
def pool_run (recv_list : Nat) (ops : List QueueOp) : PoolState :=
  ops.foldl (pool_step recv_list) (PoolState.init recv_list)

/-- The requests pushed by an interleaving, in push order. -/
def pushes : List QueueOp → List Nat
  | [] => []
  | .push r :: ops => r :: pushes ops
  | _ :: ops => pushes ops

/-- The inbound queue as the spec describes it (section 4.4): a FIFO of
requests; the reactor pushes a completed request at the tail; a worker, under
the lock, pops the head if the queue is not empty, and frees the request once
it has processed it. `dequeued` and `freed` log the requests popped and freed,
in order. -/
structure FifoState where
  queue : List Nat
  holding : Nat → Option Nat
  dequeued : List Nat
  freed : List Nat

/-- The empty queue of the spec, no worker busy. -/
def FifoState.init : FifoState :=
  { queue := [], holding := fun _ => none, dequeued := [], freed := [] }

/-- One step on the queue of the spec: push at the tail, pop the head, free
the processed request. -/
def fifo_step (t : FifoState) : QueueOp → FifoState
  | .push r => { t with queue := t.queue ++ [r] }
  | .take w =>
    match t.holding w with
    | some _ => t
    | none =>
      match t.queue with
      | [] => t
      | x :: rest =>
        { t with queue := rest
                 holding := fun v => if v = w then some x else t.holding v
                 dequeued := t.dequeued ++ [x] }
  | .release w =>
    match t.holding w with
    | none => t
    | some r =>
      { t with holding := fun v => if v = w then none else t.holding v
               freed := t.freed ++ [r] }

/-- Run an interleaving on the queue of the spec. -/
def fifo_run (ops : List QueueOp) : FifoState :=
  ops.foldl fifo_step FifoState.init

/-- A push hands over a request that is a live object of its own: its address
is not the list head, it is not on the queue, and it is not in the hands of a
worker (every earlier dequeue of this address was followed by its free, after
which `malloc` may return the address again). -/
def FreshPush (head : Nat) (t : FifoState) : QueueOp → Prop
  | .push r => r ≠ head ∧ r ∉ t.queue ∧ t.dequeued.count r = t.freed.count r
  | _ => True

instance FreshPush.decide (head : Nat) (t : FifoState) : ∀ op, Decidable (FreshPush head t op)
  | .push r =>
    inferInstanceAs (Decidable (r ≠ head ∧ r ∉ t.queue ∧ t.dequeued.count r = t.freed.count r))
  | .take _ => inferInstanceAs (Decidable True)
  | .release _ => inferInstanceAs (Decidable True)

/-- Every push of the interleaving, run from `t`, is a `FreshPush`. -/
def PushesFresh (head : Nat) : FifoState → List QueueOp → Prop
  | _, [] => True
  | t, op :: ops => FreshPush head t op ∧ PushesFresh head (fifo_step t op) ops

instance PushesFresh.decide (head : Nat) : ∀ t ops, Decidable (PushesFresh head t ops)
  | _, [] => inferInstanceAs (Decidable True)
  | t, op :: ops =>
    have := PushesFresh.decide head (fifo_step t op) ops
    inferInstanceAs (Decidable (FreshPush head t op ∧ PushesFresh head (fifo_step t op) ops))

/-- An interleaving with two workers in which the address of request 10 comes
back from `malloc` after the request was freed. -/
def demoOps : List QueueOp :=
  [.push 10, .push 20, .take 0, .release 0, .push 10, .take 1, .push 30, .take 0]

/-- How the inbound queue in memory `s` stands to the queue of the spec `t`
after an interleaving that pushed the requests `pushed`. -/
structure PoolInv (head : Nat) (s : PoolState) (t : FifoState) (pushed : List Nat) : Prop where
  queue : IsQueue s.links head t.queue
  deq : s.dequeued = t.dequeued
  hold : s.holding = t.holding
  freed : s.freed = t.freed
  split : pushed = t.dequeued ++ t.queue
  held : ∀ w r, t.holding w = some r →
    r ∉ head :: t.queue ∧ s.links.next r = r ∧ s.links.prev r = r ∧
      t.dequeued.count r = t.freed.count r + 1
  idle : ∀ r, (∀ w, t.holding w ≠ some r) → t.dequeued.count r = t.freed.count r
  inj : ∀ w v r, t.holding w = some r → t.holding v = some r → w = v

/-! ## Receive state machine (`dnet_schedule_command`, `dnet_process_recv_single`) -/

/-- Linux `errno` value. -/
def EINTR : Int := 4

/-- Linux `errno` value. -/
def EAGAIN : Int := 11

/-- Linux `errno` value. -/
def ENOMEM : Int := 12

/-- Linux `errno` value. -/
def EEXIST : Int := 17

/-- Linux `errno` value. -/
def ECONNRESET : Int := 104

/-- Linux `errno` value. -/
def ENOENT : Int := 2

/-- Modelled from the spec: the flag bit `DNET_IO_CMD` of the absent header
`elliptics.h`, set in `rcv_flags` while the connection is in the
awaiting-header phase and clear in the awaiting-body phase (section 3,
"current receive-phase flag"). -/
def DNET_IO_CMD : Nat := 1

/-- Largest byte count a single `recv` returns on Linux (`MAX_RW_COUNT`,
`INT_MAX` rounded down to a page); the result therefore fits the `int err` it
is assigned to. -/
def MAX_RW_COUNT : Nat := 0x7ffff000

/-- The declarations of the absent headers that the receive path depends on:
`sizeof(struct dnet_cmd)`, `sizeof(struct dnet_io_req)`, the in-place
byte-order conversion `dnet_convert_cmd`, and the field `size` of a converted
`struct dnet_cmd` given as bytes. -/
structure Layout where
  cmd_size : Nat
  req_size : Nat
  convert : List Nat → List Nat
  size : List Nat → Nat

/-- The `struct dnet_io_req` followed by the bytes allocated with it. `mem` is the
whole allocation, byte `i` of `mem` is the byte at address `r + i`; the first
`sizeof(struct dnet_io_req)` bytes hold the structure itself, whose fields are
the other components of this record. -/
structure dnet_io_req where
  st : Nat
  header : Nat
  hsize : Nat
  data : Nat
  dsize : Nat
  mem : List Nat

/-- The receive side of `struct dnet_net_state`. `rcv_cmd` is the in-place
`struct dnet_cmd`, as bytes. -/
structure dnet_net_state where
  refcnt : Nat
  rcv_cmd : List Nat
  rcv_offset : Nat
  rcv_end : Nat
  rcv_flags : Nat
  rcv_data : Nat

/-- What the socket does on the next `recv` calls. -/
inductive SockEvent where
  | data (bytes : List Nat)
  | fail (errno : Int)
  | eof
  deriving DecidableEq

/-- One connection, the memory it allocates, the inbound queue and the
environment (socket and allocator). `self` is the address of the connection,
`recv_list` the address of `io->recv_list`. `mallocs` lists the results of the
coming `malloc` calls (`0` is a failed allocation), `malloc_log` the sizes
requested so far, `freed` the pointers passed to `free` so far and
`recv_calls` the number of `recv` calls made so far. -/
structure World where
  st : dnet_net_state
  self : Nat
  recv_list : Nat
  links : Links
  heap : Nat → Option dnet_io_req
  sock : List SockEvent
  mallocs : List Nat
  malloc_log : List Nat
  freed : List Nat
  recv_calls : Nat
  errno : Int
  resets : Nat

/-- Store `bs` at offset `off` of a buffer; bytes that fall outside the buffer
are not stored. -/
def writeAt (buf : List Nat) (off : Nat) (bs : List Nat) : List Nat :=
  buf.take off ++ bs.take (buf.length - off) ++ buf.drop (off + bs.length)

/-- The pointer `data` of `dnet_process_recv_single`: into `st->rcv_cmd` or
into the object `st->rcv_data` points at, `off` bytes from its start. -/
inductive Dest where
  | cmd (off : Nat)
  | obj (ptr off : Nat)

/-- Store received bytes at `data`. -/
def World.store (w : World) : Dest → List Nat → World
  | .cmd off, bs => { w with st := { w.st with rcv_cmd := writeAt w.st.rcv_cmd off bs } }
  | .obj ptr off, bs =>
    match w.heap ptr with
    | some r =>
      { w with heap := fun a => if a = ptr then some { r with mem := writeAt r.mem off bs }
                                else w.heap a }
    | none => w

/-- The socket script after a `recv` took `n` of the pending bytes `bs`: what
was not taken stays pending. -/
def leftover (bs : List Nat) (n : Nat) (rest : List SockEvent) : List SockEvent :=
  if (bs.drop n).isEmpty then rest else .data (bs.drop n) :: rest

/-- The call `recv(st->read_s, data, size, 0)` on the non-blocking socket: the return
value and the world after the call. With nothing pending the call fails with
`EAGAIN`; pending bytes are returned up to `size` (and `MAX_RW_COUNT`), the
rest stays pending; after the peer's shutdown every call returns 0. -/
def recv (w : World) (data : Dest) (size : Nat) : Int × World :=
  let w := { w with recv_calls := w.recv_calls + 1 }
  match w.sock with
  | [] => (-1, { w with errno := EAGAIN })
  | .fail e :: rest => (-1, { w with errno := e, sock := rest })
  | .eof :: _ => (0, w)
  | .data bs :: rest =>
    let n := min (min size MAX_RW_COUNT) bs.length
    ((n : Int), { w.store data (bs.take n) with sock := leftover bs n rest })

/-- The call `malloc(size)`: the allocator hands out the next address of `mallocs`. -/
def malloc (w : World) (size : Nat) : Nat × World :=
  match w.mallocs with
  | [] => (0, { w with malloc_log := w.malloc_log ++ [size] })
  | a :: rest => (a, { w with mallocs := rest, malloc_log := w.malloc_log ++ [size] })

/-- The call `free(ptr)`. -/
def free (w : World) (ptr : Nat) : World :=
  { w with heap := fun a => if a = ptr then none else w.heap a, freed := w.freed ++ [ptr] }

/-- The function `dnet_schedule_command` (pool.c 43-60). -/
def dnet_schedule_command (L : Layout) (w : World) : World :=
  let w := { w with st := { w.st with rcv_flags := DNET_IO_CMD } }
  let w := if w.st.rcv_data ≠ 0 then
      { free w w.st.rcv_data with st := { w.st with rcv_data := 0 } }
    else w
  { w with st := { w.st with rcv_end := L.cmd_size, rcv_offset := 0 } }

/-- The label `out:` of `dnet_process_recv_single` (pool.c 163-167). -/
def recv_out (L : Layout) (err : Int) (w : World) : Int × World :=
  if err ≠ -EAGAIN ∧ err ≠ -EINTR then (err, dnet_schedule_command L w) else (err, w)

/-- The end of `dnet_process_recv_single` (pool.c 154-161): the request is
detached from the connection, the receive state is reset, the request takes a
reference on the connection (`dnet_state_get`) and is queued. -/
def recv_complete (L : Layout) (w : World) : Int × World :=
  let r := w.st.rcv_data
  let w := { w with st := { w.st with rcv_data := 0 } }
  let w := dnet_schedule_command L w
  let w := { w with st := { w.st with refcnt := w.st.refcnt + 1 } }
  let w := { w with
    heap := fun a =>
      if a = r then (w.heap r).map (fun (q : dnet_io_req) => { q with st := w.self })
      else w.heap a }
  (0, { w with links := dnet_schedule_io w.recv_list r w.links })

/-- The receive step of `dnet_process_recv_single` (pool.c 74-102): either the
error the function leaves with, or the world after the cursor advanced. -/
def recv_chunk (w : World) : Except (Int × World) World :=
  let data := if w.st.rcv_flags &&& DNET_IO_CMD ≠ 0 then Dest.cmd w.st.rcv_offset
    else Dest.obj w.st.rcv_data w.st.rcv_offset
  let size := (w.st.rcv_end + 2 ^ 64 - w.st.rcv_offset) % 2 ^ 64
  if size ≠ 0 then
    match recv w data size with
    | (err, w1) =>
      if err < 0 then
        if w1.errno ≠ EAGAIN ∧ w1.errno ≠ EINTR then .error (-w1.errno, w1)
        else .error (-EAGAIN, w1)
      else if err = 0 then .error (-ECONNRESET, w1)
      else .ok { w1 with st := { w1.st with
                  rcv_offset := (w1.st.rcv_offset + err.toNat) % 2 ^ 64 } }
  else .ok w

/-- The function `dnet_process_recv_single` (pool.c 62-168). Each unit of fuel pays for one
pass from the label `again:`. -/
def dnet_process_recv_single (L : Layout) : Nat → World → Option (Int × World)
  | 0, _ => none
  | fuel + 1, w =>
    match recv_chunk w with
    | .error (err, w1) => some (recv_out L err w1)
    | .ok w1 =>
      if w1.st.rcv_offset ≠ w1.st.rcv_end then
        dnet_process_recv_single L fuel w1
      else if w1.st.rcv_flags &&& DNET_IO_CMD ≠ 0 then
        let c := L.convert w1.st.rcv_cmd
        let w2 := { w1 with st := { w1.st with rcv_cmd := c } }
        let csize := L.size c % 2 ^ 64
        match malloc w2 ((csize + L.cmd_size + L.req_size) % 2 ^ 64) with
        | (r, w3) =>
          if r = 0 then some (recv_out L (-ENOMEM) w3)
          else
            let obj : dnet_io_req :=
              { st := 0, header := r + L.req_size, hsize := L.cmd_size, data := 0, dsize := 0,
                mem := writeAt (List.replicate ((csize + L.cmd_size + L.req_size) % 2 ^ 64) 0)
                  L.req_size (c.take L.cmd_size) }
            let off := (L.req_size + L.cmd_size) % 2 ^ 64
            let w4 := { w3 with
              heap := fun a => if a = r then some obj else w3.heap a
              st := { w3.st with
                rcv_data := r
                rcv_offset := off
                rcv_end := (off + csize) % 2 ^ 64
                rcv_flags := w3.st.rcv_flags &&& (0xffffffff - DNET_IO_CMD) } }
            if csize ≠ 0 then
              let obj1 := { obj with data := obj.header + L.cmd_size, dsize := csize }
              dnet_process_recv_single L fuel
                { w4 with heap := fun a => if a = r then some obj1 else w4.heap a }
            else some (recv_complete L w4)
      else some (recv_complete L w1)

/-- The reactor coming back to the connection: `dnet_process_recv_single` is
invoked again, on a later readiness notification, for as long as it returned
`-EAGAIN`. `rounds` bounds the number of invocations. -/
def recv_message (L : Layout) (fuel : Nat) : Nat → World → Option (Int × World)
  | 0, _ => none
  | rounds + 1, w =>
    match dnet_process_recv_single L fuel w with
    | none => none
    | some (err, w1) => if err = -EAGAIN then recv_message L fuel rounds w1 else some (err, w1)

/-- The header bytes of a request at address `a`: `r->hsize` bytes at
`r->header`. -/
def req_header (a : Nat) (r : dnet_io_req) : List Nat :=
  (r.mem.drop (r.header - a)).take r.hsize

/-- The payload bytes of a request at address `a`: `r->dsize` bytes at
`r->data`. -/
def req_payload (a : Nat) (r : dnet_io_req) : List Nat :=
  (r.mem.drop (r.data - a)).take r.dsize

/-- The connection as `dnet_schedule_command` leaves it: awaiting a header. -/
def AwaitingHeader (L : Layout) (st : dnet_net_state) : Prop :=
  st.rcv_flags = DNET_IO_CMD ∧ st.rcv_offset = 0 ∧ st.rcv_end = L.cmd_size ∧ st.rcv_data = 0

instance AwaitingHeader.decide (L : Layout) (st : dnet_net_state) :
    Decidable (AwaitingHeader L st) :=
  inferInstanceAs (Decidable (_ ∧ _ ∧ _ ∧ _))

/-- Little-endian value of a run of bytes. -/
def le_value : List Nat → Nat
  | [] => 0
  | b :: bs => b + 256 * le_value bs

/-- A concrete layout used for the worked examples: the 16-byte header of the
spec's scenario (an 8-byte transaction id, then the 64-bit little-endian
payload size), a 40-byte `struct dnet_io_req`, and a little-endian host, on
which `dnet_convert_cmd` changes nothing. -/
def demoLayout : Layout :=
  { cmd_size := 16, req_size := 40, convert := id, size := fun c => le_value ((c.drop 8).take 8) }

/-- A connection right after `dnet_schedule_command`, an empty inbound queue at
address 1, and the given socket and allocator behaviour. -/
def demoWorld (sock : List SockEvent) (mallocs : List Nat) : World :=
  { st := { refcnt := 1, rcv_cmd := List.replicate 16 0, rcv_offset := 0, rcv_end := 16,
            rcv_flags := DNET_IO_CMD, rcv_data := 0 }
    self := 7
    recv_list := 1
    links := INIT_LIST_HEAD 1 ⟨fun _ => 0, fun _ => 0⟩
    heap := fun _ => none
    sock := sock
    mallocs := mallocs
    malloc_log := []
    freed := []
    recv_calls := 0
    errno := 0
    resets := 0 }

/-- An event that does not end the connection: pending bytes (at least one),
or a `recv` failure with `EAGAIN` or `EINTR`. -/
def SockEvent.benign : SockEvent → Prop
  | .data bs => bs ≠ []
  | .fail e => e = EAGAIN ∨ e = EINTR
  | .eof => False

instance SockEvent.benign_decide : ∀ e : SockEvent, Decidable e.benign
  | .data bs => inferInstanceAs (Decidable (bs ≠ []))
  | .fail e => inferInstanceAs (Decidable (e = EAGAIN ∨ e = EINTR))
  | .eof => inferInstanceAs (Decidable False)

/-- The bytes a socket script delivers, in order. -/
def stream : List SockEvent → List Nat
  | [] => []
  | .data bs :: evs => bs ++ stream evs
  | _ :: evs => stream evs

/-- The parts of the world that receiving bytes does not touch. -/
structure SameFrame (w w1 : World) : Prop where
  self : w1.self = w.self
  recv_list : w1.recv_list = w.recv_list
  links : w1.links = w.links
  freed : w1.freed = w.freed
  refcnt : w1.st.refcnt = w.st.refcnt
  resets : w1.resets = w.resets

/-- Awaiting-header phase with the first `k` bytes of the message `msg`
received. -/
structure HdrInv (L : Layout) (msg : List Nat) (k : Nat) (w : World) : Prop where
  flags : w.st.rcv_flags = DNET_IO_CMD
  offset : w.st.rcv_offset = k
  rcv_end : w.st.rcv_end = L.cmd_size
  data : w.st.rcv_data = 0
  len : w.st.rcv_cmd.length = L.cmd_size
  bytes : w.st.rcv_cmd.take k = msg.take k

/-- Awaiting-body phase: the request at `a` holds the converted header `c` and
the first `j` bytes of the payload. -/
structure BodyInv (L : Layout) (a : Nat) (c payload : List Nat) (j : Nat) (w : World) : Prop where
  flags : w.st.rcv_flags = 0
  offset : w.st.rcv_offset = L.req_size + L.cmd_size + j
  rcv_end : w.st.rcv_end = L.req_size + L.cmd_size + payload.length
  data : w.st.rcv_data = a
  obj : ∃ r, w.heap a = some r ∧ r.st = 0 ∧ r.header = a + L.req_size ∧ r.hsize = L.cmd_size ∧
    r.data = a + L.req_size + L.cmd_size ∧ r.dsize = payload.length ∧
    r.mem.length = L.req_size + L.cmd_size + payload.length ∧
    r.mem.take (L.req_size + L.cmd_size + j) =
      List.replicate L.req_size 0 ++ c ++ payload.take j

/-- What the layout parameters must satisfy to stand for C declarations: a
structure has a size, the two sizes fit `size_t`, and the in-place conversion
keeps the size of the header. -/
structure Layout.WF (L : Layout) : Prop where
  cmd_pos : 0 < L.cmd_size
  fits : L.req_size + L.cmd_size < 2 ^ 64
  convert_len : ∀ h, (L.convert h).length = h.length

/-- The world right before the end of `dnet_process_recv_single`: the request
at `a` is fully assembled from the converted header `c` and the payload. -/
structure Ready (L : Layout) (a : Nat) (c payload : List Nat) (w : World) : Prop where
  data : w.st.rcv_data = a
  obj : ∃ r, w.heap a = some r ∧ r.st = 0 ∧ r.header = a + L.req_size ∧ r.hsize = L.cmd_size ∧
    r.data = (if payload = [] then 0 else a + L.req_size + L.cmd_size) ∧
    r.dsize = payload.length ∧
    r.mem = List.replicate L.req_size 0 ++ c ++ payload

/-- The outcome of receiving one message: the call returned 0, the connection
awaits the next header and took one more reference, nothing was freed, and the
queue that held `q` now holds `q` followed by the request at `a`, whose header
is `c` and whose payload is `payload`. -/
structure Received (L : Layout) (w : World) (a : Nat) (c payload q : List Nat)
    (res : Int × World) : Prop where
  ret : res.1 = 0
  state : AwaitingHeader L res.2.st
  queue : IsQueue res.2.links w.recv_list (q ++ [a])
  refcnt : res.2.st.refcnt = w.st.refcnt + 1
  freed : res.2.freed = w.freed
  obj : ∃ r, res.2.heap a = some r ∧ r.st = w.self ∧ r.hsize = L.cmd_size ∧
    r.dsize = payload.length ∧
    r.data = (if payload = [] then 0 else a + L.req_size + L.cmd_size) ∧
    req_header a r = c ∧ req_payload a r = payload

/-- An invocation of `dnet_process_recv_single` with `f` units of fuel left,
followed by the further invocations of `recv_message`. -/
def resume (L : Layout) (fuel rounds f : Nat) (w : World) : Option (Int × World) :=
  match dnet_process_recv_single L f w with
  | none => none
  | some (err, w1) => if err = -EAGAIN then recv_message L fuel rounds w1 else some (err, w1)

/-- The header of the spec's scenario: 16 bytes declaring a payload of 40. -/
def demoHeader : List Nat := [1, 2, 3, 4, 5, 6, 7, 8, 40, 0, 0, 0, 0, 0, 0, 0]

/-- The payload of the spec's scenario: 40 bytes. -/
def demoPayload : List Nat := (List.range 40).map (fun i => i + 100)

/-- The spec's scenario: the header arrives in reads of 5, 3 and 8 bytes, the
payload in reads of 17 and 23 bytes, with the socket running dry in between. -/
def demoScript : List SockEvent :=
  [.data (demoHeader.take 5), .data ((demoHeader.drop 5).take 3), .fail EAGAIN,
   .data (demoHeader.drop 8), .data (demoPayload.take 17), .fail EINTR,
   .data (demoPayload.drop 17)]

/-- What `dnet_process_recv_single` returns when `recv` ends the connection:
`-ECONNRESET` when it returned 0, `-errno` when it failed. -/
def fatal_result : SockEvent → Int
  | .eof => -ECONNRESET
  | .fail e => -e
  | .data _ => -ECONNRESET

/-- The connection of `demoWorld` after the header `demoHeader` was received
and the request allocated at address 1000: it awaits the 40 bytes of the
body. -/
def demoBodyWorld (sock : List SockEvent) : World :=
  { st := { refcnt := 1, rcv_cmd := demoHeader, rcv_offset := 56, rcv_end := 96,
            rcv_flags := 0, rcv_data := 1000 }
    self := 7
    recv_list := 1
    links := INIT_LIST_HEAD 1 ⟨fun _ => 0, fun _ => 0⟩
    heap := fun a => if a = 1000 then
        some { st := 0, header := 1040, hsize := 16, data := 1056, dsize := 40,
               mem := List.replicate 40 0 ++ demoHeader ++ List.replicate 40 0 }
      else none
    sock := sock
    mallocs := []
    malloc_log := [96]
    freed := []
    recv_calls := 1
    errno := 0
    resets := 0 }

/-! ## The reactor (`dnet_state_net_process`, `dnet_io_process`) -/

/-- Linux `epoll` event bit. -/
def EPOLLIN : Nat := 0x001

/-- Linux `epoll` event bit. -/
def EPOLLOUT : Nat := 0x004

/-- Linux `epoll` event bit. -/
def EPOLLERR : Nat := 0x008

/-- Linux `epoll` event bit. -/
def EPOLLHUP : Nat := 0x010

/-- Modelled from the spec: `dnet_state_reset`, which is not among the
sources: the connection is torn down (section 4.2, "reference released,
socket closed, removed from the multiplexer"). The model counts the calls. -/
def dnet_state_reset (w : World) : World :=
  { w with resets := w.resets + 1 }

/-- The function `dnet_state_net_process` (pool.c 295-313) for the event mask `events`. The
send path `dnet_process_send_single` depends on `dnet_send_request`, which is
not among the sources, and is the parameter `send`. -/
def dnet_state_net_process (L : Layout) (fuel : Nat) (send : World → Int × World)
    (events : Nat) (w : World) : Option (Int × World) :=
  let r : Option (Int × World) :=
    if events &&& EPOLLIN ≠ 0 then dnet_process_recv_single L fuel w
    else if events &&& EPOLLOUT ≠ 0 then some (send w)
    else some (-ECONNRESET, w)
  r.map fun (err, w1) =>
    if events &&& (EPOLLHUP ||| EPOLLERR) ≠ 0 then (-ECONNRESET, w1) else (err, w1)

/-- Outcome of the reactor's loop on one ready descriptor: the state it leaves,
the number of times it invoked the handler and the number of times it called
`dnet_state_reset`. -/
structure LoopOut (σ : Type) where
  st : σ
  calls : Nat
  resets : Nat

/-- One more handler invocation in front of an outcome. -/
def LoopOut.again {σ : Type} (o : LoopOut σ) : LoopOut σ :=
  { o with calls := o.calls + 1 }

/-- The loop of `dnet_io_process` on one ready descriptor (pool.c 341-353):
`st->process` is invoked until it returns `-EAGAIN` or another negative value;
for the latter `dnet_state_reset` is called. `process` is the handler of the
connection (`none` when it does not return), `reset` is `dnet_state_reset`. -/
def dnet_io_process_fd {σ : Type} (process : σ → Option (Int × σ)) (reset : σ → σ) :
    Nat → σ → Option (LoopOut σ)
  | 0, _ => none
  | fuel + 1, s =>
    match process s with
    | none => none
    | some (err, s1) =>
      if err = 0 then (dnet_io_process_fd process reset fuel s1).map LoopOut.again
      else if err = -EAGAIN then some { st := s1, calls := 1, resets := 0 }
      else if err < 0 then some { st := reset s1, calls := 1, resets := 1 }
      else (dnet_io_process_fd process reset fuel s1).map LoopOut.again

/-- The handler, invoked repeatedly from `s`, returns the values `rs` in this
order and leaves the state `s1`. -/
def Returns {σ : Type} (process : σ → Option (Int × σ)) : σ → List Int → σ → Prop
  | s, [], s1 => s = s1
  | s, r :: rs, s1 => ∃ s2, process s = some (r, s2) ∧ Returns process s2 rs s1

/-- A handler that returns the values of a script, one per invocation, and
`-EAGAIN` once the script is used up. -/
def scripted : List Int → Option (Int × List Int)
  | [] => some (-EAGAIN, [])
  | r :: rs => some (r, rs)

/-! ## Readiness registration (`dnet_schedule_network_io`, `dnet_unschedule_send`) -/

/-- The multiplexer: the event mask registered for each descriptor, and the
thread's `errno`. -/
structure EpollWorld where
  interest : Nat → Option Nat
  errno : Int

/-- The two descriptors of a connection. -/
structure NetFds where
  read_s : Nat
  write_s : Nat

/-- The call `epoll_ctl(epoll_fd, EPOLL_CTL_ADD, fd, &ev)`. `fault` is an error the
kernel reports for reasons outside the model (`ENOMEM`, `ENOSPC`, `EBADF`,
...); without one, the call fails with `EEXIST` when the descriptor is already
registered and registers it otherwise. -/
def epoll_ctl_add (w : EpollWorld) (fd events : Nat) (fault : Option Int) : Int × EpollWorld :=
  match fault with
  | some e => (-1, { w with errno := e })
  | none =>
    match w.interest fd with
    | some _ => (-1, { w with errno := EEXIST })
    | none => (0, { w with interest := fun x => if x = fd then some events else w.interest x })

/-- The call `epoll_ctl(epoll_fd, EPOLL_CTL_DEL, fd, &ev)`: fails with `ENOENT` when the
descriptor is not registered. -/
def epoll_ctl_del (w : EpollWorld) (fd : Nat) : Int × EpollWorld :=
  match w.interest fd with
  | none => (-1, { w with errno := ENOENT })
  | some _ => (0, { w with interest := fun x => if x = fd then none else w.interest x })

/-- The function `dnet_schedule_network_io` (pool.c 255-283). -/
def dnet_schedule_network_io (w : EpollWorld) (st : NetFds) (send : Bool)
    (fault : Option Int) : Int × EpollWorld :=
  let events := if send then EPOLLOUT else EPOLLIN
  let fd := if send then st.write_s else st.read_s
  match epoll_ctl_add w fd events fault with
  | (err, w1) =>
    if err < 0 then
      if -w1.errno = -EEXIST then (0, w1) else (-w1.errno, w1)
    else (err, w1)

/-- The function `dnet_schedule_send` (pool.c 285-288). -/
def dnet_schedule_send (w : EpollWorld) (st : NetFds) (fault : Option Int) : Int × EpollWorld :=
  dnet_schedule_network_io w st true fault

/-- The function `dnet_unschedule_send` (pool.c 205-213): the result of `epoll_ctl` is
dropped, the function returns nothing. -/
def dnet_unschedule_send (w : EpollWorld) (st : NetFds) : EpollWorld :=
  (epoll_ctl_del w st.write_s).2

/-! ## Accepting connections (`dnet_state_accept_process`) -/

/-- A listening socket. `backlog` holds the descriptors `accept` will return
for the pending connections, oldest first; `create_results` the outcomes of the
coming `dnet_state_create` calls (`0` for a created connection, otherwise the
error stored through its `err` argument; a created connection when the list
is used up); `created` and `closed` log the descriptors handed to
`dnet_state_create` with success and to `dnet_sock_close`. -/
structure AcceptWorld where
  backlog : List Int
  create_results : List Int
  errno : Int
  accept_calls : Nat
  created : List Int
  closed : List Int
  resets : Nat

/-- The call `accept(orig->read_s, ...)` on the non-blocking listening socket: the
oldest pending connection, or failure with `EAGAIN` when none is pending. -/
def accept (w : AcceptWorld) : Int × AcceptWorld :=
  match w.backlog with
  | [] => (-1, { w with accept_calls := w.accept_calls + 1, errno := EAGAIN })
  | cs :: rest => (cs, { w with accept_calls := w.accept_calls + 1, backlog := rest })

/-- Modelled from the spec: `dnet_state_create`, which is not among the
sources (section 4.2: it "creates a new Connection State registered for
read-readiness"): the result is 0 and the descriptor is logged in `created`,
or the error the call stores through `err`. -/
def dnet_state_create (w : AcceptWorld) (cs : Int) : Int × AcceptWorld :=
  match w.create_results with
  | [] => (0, { w with created := w.created ++ [cs] })
  | e :: rs =>
    if e = 0 then (0, { w with created := w.created ++ [cs], create_results := rs })
    else (e, { w with create_results := rs })

/-- The function `dnet_state_accept_process` (pool.c 170-203). -/
def dnet_state_accept_process (w : AcceptWorld) : Int × AcceptWorld :=
  match accept w with
  | (cs, w1) =>
    if cs ≤ 0 then (-w1.errno, w1)
    else
      match dnet_state_create w1 cs with
      | (err, w2) =>
        if err ≠ 0 then (err, { w2 with closed := w2.closed ++ [cs] })
        else (0, w2)

/-- The reactor's loop on the listening descriptor for one readiness
notification: `st->process` is `dnet_state_accept_process`. -/
def accept_notification (fuel : Nat) (w : AcceptWorld) : Option (LoopOut AcceptWorld) :=
  dnet_io_process_fd (fun s => some (dnet_state_accept_process s))
    (fun s => { s with resets := s.resets + 1 }) fuel w

/-- A listening socket with the given pending connections, nothing accepted
yet. -/
def demoListener (backlog : List Int) : AcceptWorld :=
  { backlog := backlog, create_results := [], errno := 0, accept_calls := 0, created := [],
    closed := [], resets := 0 }

/-! ## Shutdown (`dnet_io_cleanup_states`, `dnet_io_exit`) -/

/-- Modelled from the spec: the loop `list_for_each_entry_safe(pos, n, head,
member)` of the absent `list.h` header (section 9, intrusive lists; the
traversal keeps the successor `n` of the current entry, so that the body may
unlink or free `pos`). The body acts on the links with `body pos` and `pos` is
appended to the log of visited entries. -/
def list_for_each_entry_safe (body : Nat → Links → Links) (head : Nat) :
    Nat → Nat → Nat → Links × List Nat → Option (Links × List Nat)
  | 0, _, _, _ => none
  | fuel + 1, pos, n, (l, log) =>
    if pos = head then some (l, log)
    else
      let l1 := body pos l
      list_for_each_entry_safe body head fuel n (l1.next n) (l1, log ++ [pos])

/-- The node at shutdown: the links of the tracked connections
(`n->storage_state_list` through `storage_state_entry`), the links of the
inbound queue (`io->recv_list` through `req_entry`), the connections passed to
`dnet_state_reset` so far and the requests passed to `dnet_io_req_free` so far,
in call order. -/
structure ExitWorld where
  states : Links
  recv : Links
  reset_log : List Nat
  free_log : List Nat
  epoll_closed : Bool

/-- The function `dnet_io_cleanup_states` (pool.c 359-366). `dnet_state_reset` is not among
the sources; whether it takes the connection off the node's list
(`list_del_init` on its `storage_state_entry`) is the parameter `unlinks`. -/
def dnet_io_cleanup_states (unlinks : Bool) (storage_state_list fuel : Nat) (w : ExitWorld) :
    Option ExitWorld :=
  (list_for_each_entry_safe (fun st l => if unlinks then list_del_init st l else l)
    storage_state_list fuel (w.states.next storage_state_list)
    (w.states.next (w.states.next storage_state_list)) (w.states, w.reset_log)).map
    fun (l, log) => { w with states := l, reset_log := log }

/-- The function `dnet_io_exit` (pool.c 499-522), after the threads were joined: the
tracked connections are reset, the multiplexer is closed and every request
left on `io->recv_list` is unlinked with `list_del` and freed. -/
def dnet_io_exit (unlinks : Bool) (storage_state_list recv_list fuel : Nat) (w : ExitWorld) :
    Option ExitWorld :=
  match dnet_io_cleanup_states unlinks storage_state_list fuel w with
  | none => none
  | some w1 =>
    let w2 := { w1 with epoll_closed := true }
    (list_for_each_entry_safe list_del recv_list fuel (w2.recv.next recv_list)
      (w2.recv.next (w2.recv.next recv_list)) (w2.recv, w2.free_log)).map
      fun (l, log) => { w2 with recv := l, free_log := log }

/-- A node at shutdown: connections 11 and 12 are tracked on the list at
address 1, requests 21, 22 and 23 wait on the inbound queue at address 2. -/
def demoExit : ExitWorld :=
  { states := list_add_tail 12 1 (list_add_tail 11 1 (INIT_LIST_HEAD 1 ⟨fun _ => 0, fun _ => 0⟩))
    recv := list_add_tail 23 2 (list_add_tail 22 2 (list_add_tail 21 2
      (INIT_LIST_HEAD 2 ⟨fun _ => 0, fun _ => 0⟩)))
    reset_log := []
    free_log := []
    epoll_closed := false }

/-- A header for `demoLayout` whose size field holds the largest 64-bit
value, `0xffffffffffffffff`. -/
def demoHugeHeader : List Nat :=
  [1, 2, 3, 4, 5, 6, 7, 8, 255, 255, 255, 255, 255, 255, 255, 255]

/-- A layout like `demoLayout` whose headers carry a 32-bit payload size, so
that no header can declare a size near `2 ^ 64`. -/
def narrowLayout : Layout :=
  { cmd_size := 16, req_size := 40, convert := id,
    size := fun c => le_value ((c.drop 8).take 4) % 2 ^ 32 }

/-- The receive cursor is within its bounds. -/
def CursorOk (st : dnet_net_state) : Prop :=
  st.rcv_offset ≤ st.rcv_end ∧ st.rcv_end < 2 ^ 64

/-! ## Facts about intrusive lists -/

theorem upd_same (f : Nat → Nat) (a v : Nat) : upd f a v a = v := by
  simp [upd]

theorem upd_other (f : Nat → Nat) {a x : Nat} (v : Nat) (h : x ≠ a) : upd f a v x = f x := by
  simp [upd, h]

theorem path_congr {f g : Nat → Nat} : ∀ {a : Nat} {xs : List Nat} {b : Nat},
    (∀ x ∈ a :: xs, g x = f x) → Path f a xs b → Path g a xs b
  | a, [], b, h, hp => by
    have := h a (by simp)
    simpa [Path, this] using hp
  | a, x :: xs, b, h, hp => by
    have ha := h a (by simp)
    refine ⟨by rw [ha]; exact hp.1, ?_⟩
    exact path_congr (fun y hy => h y (List.mem_cons_of_mem _ hy)) hp.2

theorem path_append {f : Nat → Nat} : ∀ {a : Nat} {xs : List Nat} {y : Nat} {ys : List Nat}
    {b : Nat}, Path f a (xs ++ y :: ys) b ↔ Path f a xs y ∧ Path f y ys b
  | a, [], y, ys, b => by simp [Path]
  | a, x :: xs, y, ys, b => by
    show (f a = x ∧ Path f x (xs ++ y :: ys) b) ↔ _
    rw [path_append]
    simp only [Path, and_assoc]

/-- Redirecting the pointer of the last node of a chain redirects its end. -/
theorem path_redirect {f : Nat → Nat} (d : Nat) : ∀ {a : Nat} {xs : List Nat} {b : Nat},
    (a :: xs).Nodup → Path f a xs b →
      Path (upd f ((a :: xs).getLast (List.cons_ne_nil _ _)) d) a xs d
  | a, [], b, _, _ => by simp [Path, upd_same]
  | a, x :: xs, b, hnd, hp => by
    have hnd' : (x :: xs).Nodup := (List.nodup_cons.mp hnd).2
    have ha : a ∉ x :: xs := (List.nodup_cons.mp hnd).1
    have hlast : (a :: x :: xs).getLast (List.cons_ne_nil _ _)
        = (x :: xs).getLast (List.cons_ne_nil _ _) := by simp
    rw [hlast]
    refine ⟨?_, path_redirect d hnd' hp.2⟩
    rw [upd_other]
    · exact hp.1
    · intro h
      exact ha (h ▸ List.getLast_mem _)

/-- The first pointer of the backward chain is the last entry of the list. -/
theorem path_prev_last {f : Nat → Nat} {head : Nat} {xs : List Nat}
    (hp : Path f head xs.reverse head) :
    f head = (head :: xs).getLast (List.cons_ne_nil _ _) := by
  rcases List.eq_nil_or_concat xs with rfl | ⟨ys, y, rfl⟩
  · simpa [Path] using hp
  · simp only [List.concat_eq_append, List.reverse_append, List.reverse_cons, List.reverse_nil,
      List.nil_append, List.singleton_append, Path] at hp
    simp [hp.1]

theorem list_add_tail_next (new head : Nat) (l : Links) :
    (list_add_tail new head l).next = upd (upd l.next new head) (l.prev head) new := rfl

theorem list_add_tail_prev (new head : Nat) (l : Links) :
    (list_add_tail new head l).prev = upd (upd l.prev head new) new (l.prev head) := rfl

theorem list_del_init_next (e : Nat) (l : Links) :
    (list_del_init e l).next = upd (upd l.next (l.prev e) (l.next e)) e e := rfl

theorem list_del_init_prev (e : Nat) (l : Links) :
    (list_del_init e l).prev = upd (upd l.prev (l.next e) (l.prev e)) e e := rfl

theorem list_del_next (e : Nat) (l : Links) :
    (list_del e l).next = upd (upd l.next (l.prev e) (l.next e)) e LIST_POISON1 := rfl

theorem list_del_prev (e : Nat) (l : Links) :
    (list_del e l).prev = upd (upd l.prev (l.next e) (l.prev e)) e LIST_POISON2 := rfl

/-- The function `list_add_tail` appends the new entry to the contents of the list. -/
theorem list_add_tail_spec {l : Links} {head : Nat} {xs : List Nat} {new : Nat}
    (h : IsQueue l head xs) (hnew : new ∉ head :: xs) :
    IsQueue (list_add_tail new head l) head (xs ++ [new]) := by
  obtain ⟨hnd, hn, hp⟩ := h
  have hlast := path_prev_last hp
  have hlast_mem : l.prev head ∈ head :: xs := hlast ▸ List.getLast_mem _
  have hne : l.prev head ≠ new := fun e => hnew (e ▸ hlast_mem)
  have hhead : head ≠ new := fun e => hnew (e ▸ List.mem_cons_self _ _)
  refine ⟨?_, ?_, ?_⟩
  · have : (head :: (xs ++ [new])) = (head :: xs) ++ [new] := rfl
    rw [this, List.nodup_append]
    refine ⟨hnd, List.nodup_singleton _, ?_⟩
    intro a ha hb
    rw [List.mem_singleton] at hb
    exact hnew (hb ▸ ha)
  · rw [list_add_tail_next, path_append]
    constructor
    · have h1 : Path (upd l.next new head) head xs head :=
        path_congr (fun x hx => upd_other _ _ (fun e => hnew (e ▸ hx))) hn
      have h2 := path_redirect new hnd h1
      rw [← hlast] at h2
      exact h2
    · show upd (upd l.next new head) (l.prev head) new new = head
      rw [upd_other _ _ (Ne.symm hne), upd_same]
  · rw [list_add_tail_prev, List.reverse_append]
    show upd (upd l.prev head new) new (l.prev head) head = new ∧
      Path (upd (upd l.prev head new) new (l.prev head)) new xs.reverse head
    refine ⟨by rw [upd_other _ _ hhead, upd_same], ?_⟩
    have hagree : ∀ x ∈ xs.reverse, upd (upd l.prev head new) new (l.prev head) x = l.prev x := by
      intro x hx
      have hx' : x ∈ xs := List.mem_reverse.mp hx
      have h1 : x ≠ new := fun e => hnew (e ▸ List.mem_cons_of_mem _ hx')
      have h2 : x ≠ head := fun e => (List.nodup_cons.mp hnd).1 (e ▸ hx')
      rw [upd_other _ _ h1, upd_other _ _ h2]
    cases hrev : xs.reverse with
    | nil =>
      rw [hrev] at hp
      show upd (upd l.prev head new) new (l.prev head) new = head
      rw [upd_same]
      exact hp
    | cons y ys =>
      rw [hrev] at hp hagree
      refine ⟨by rw [upd_same]; exact hp.1, ?_⟩
      exact path_congr hagree hp.2

/-- Unlinking the first entry of a list (the common part of `list_del` and
`list_del_init`): whatever is then stored in the entry's own fields, the list
holds the remaining entries. -/
theorem unlink_first {l : Links} {head x : Nat} {rest : List Nat} (p q : Nat)
    (h : IsQueue l head (x :: rest)) :
    IsQueue ⟨upd (upd l.next (l.prev x) (l.next x)) x p,
             upd (upd l.prev (l.next x) (l.prev x)) x q⟩ head rest := by
  obtain ⟨hnd, hn, hp⟩ := h
  have hnd' : (head :: rest).Nodup := by
    have := hnd
    simp only [List.nodup_cons, List.mem_cons, not_or] at this ⊢
    exact ⟨this.1.2, this.2.2⟩
  have hxh : x ≠ head := fun e => (List.nodup_cons.mp hnd).1 (e ▸ List.mem_cons_self _ _)
  have hxr : x ∉ rest := (List.nodup_cons.mp (List.nodup_cons.mp hnd).2).1
  have hhr : head ∉ rest := (List.nodup_cons.mp hnd').1
  have hx_not : x ∉ head :: rest := by
    simp only [List.mem_cons, not_or]; exact ⟨hxh, hxr⟩
  -- backward chain: head -> rest.reverse -> x -> head
  have hp' : Path l.prev head (rest.reverse ++ x :: []) head := by
    simpa using hp
  rw [path_append] at hp'
  have hprevx : l.prev x = head := hp'.2
  -- forward chain: head -> x -> rest -> head
  have hnx : Path l.next x rest head := hn.2
  have hnext_last : l.next x = (head :: rest.reverse).getLast (List.cons_ne_nil _ _) := by
    cases rest with
    | nil => simpa [Path] using hnx
    | cons y ys => simp [hnx.1]
  refine ⟨hnd', ?_, ?_⟩
  · show Path (upd (upd l.next (l.prev x) (l.next x)) x p) head rest head
    rw [hprevx]
    cases rest with
    | nil =>
      show upd (upd l.next head (l.next x)) x p head = head
      rw [upd_other _ _ (Ne.symm hxh), upd_same]
      exact hnx
    | cons y ys =>
      refine ⟨by rw [upd_other _ _ (Ne.symm hxh), upd_same]; exact hnx.1, ?_⟩
      refine path_congr ?_ hnx.2
      intro z hz
      have hz1 : z ≠ x := fun e => hxr (e ▸ hz)
      have hz2 : z ≠ head := fun e => hhr (e ▸ hz)
      rw [upd_other _ _ hz1, upd_other _ _ hz2]
  · show Path (upd (upd l.prev (l.next x) (l.prev x)) x q) head rest.reverse head
    have hnd_rev : (head :: rest.reverse).Nodup := by
      simp only [List.nodup_cons, List.mem_reverse, List.nodup_reverse] at hnd' ⊢
      exact hnd'
    have h1 := path_redirect head hnd_rev hp'.1
    rw [← hnext_last] at h1
    rw [hprevx]
    refine path_congr ?_ h1
    intro z hz
    have hz' : z ∈ head :: rest := by
      simpa using hz
    exact upd_other _ _ (fun e => hx_not (e ▸ hz'))

/-- The function `list_del_init` on the first entry leaves the remaining entries queued. -/
theorem list_del_init_first {l : Links} {head x : Nat} {rest : List Nat}
    (h : IsQueue l head (x :: rest)) : IsQueue (list_del_init x l) head rest :=
  unlink_first x x h

/-- The function `list_del` on the first entry leaves the remaining entries queued. -/
theorem list_del_first {l : Links} {head x : Nat} {rest : List Nat}
    (h : IsQueue l head (x :: rest)) : IsQueue (list_del x l) head rest :=
  unlink_first LIST_POISON1 LIST_POISON2 h

/-- The function `list_del` on an entry that `list_del_init` left pointing at itself touches
only that entry's own link fields. -/
theorem list_del_detached_next {l : Links} {e : Nat} (hn : l.next e = e) (hp : l.prev e = e)
    {y : Nat} (hy : y ≠ e) : (list_del e l).next y = l.next y ∧ (list_del e l).prev y = l.prev y := by
  rw [list_del_next, list_del_prev, hn, hp]
  exact ⟨by rw [upd_other _ _ hy, upd_other _ _ hy], by rw [upd_other _ _ hy, upd_other _ _ hy]⟩

/-- A list is not disturbed by writes to the link fields of an entry that is
not on it. -/
theorem isQueue_congr {l l1 : Links} {head : Nat} {xs : List Nat} (h : IsQueue l head xs)
    (hagree : ∀ y ∈ head :: xs, l1.next y = l.next y ∧ l1.prev y = l.prev y) :
    IsQueue l1 head xs := by
  obtain ⟨hnd, hn, hp⟩ := h
  refine ⟨hnd, path_congr (fun y hy => (hagree y hy).1) hn, ?_⟩
  refine path_congr (fun y hy => (hagree y ?_).2) hp
  simpa using hy

theorem list_del_detached {l : Links} {head : Nat} {xs : List Nat} {e : Nat}
    (h : IsQueue l head xs) (he : e ∉ head :: xs) (hn : l.next e = e) (hp : l.prev e = e) :
    IsQueue (list_del e l) head xs :=
  isQueue_congr h (fun _ hy => list_del_detached_next hn hp (fun e1 => he (e1 ▸ hy)))

theorem isQueue_first {l : Links} {head x : Nat} {rest : List Nat}
    (h : IsQueue l head (x :: rest)) : l.next head = x ∧ x ≠ head :=
  ⟨h.2.1.1, fun e => (List.nodup_cons.mp h.1).1 (e ▸ List.mem_cons_self _ _)⟩

theorem isQueue_nil {l : Links} {head : Nat} (h : IsQueue l head []) : l.next head = head :=
  h.2.1

theorem isQueue_init (head : Nat) (l : Links) : IsQueue (INIT_LIST_HEAD head l) head [] := by
  refine ⟨by simp, ?_, ?_⟩
  · show upd l.next head head head = head
    exact upd_same _ _ _
  · show upd l.prev head head head = head
    exact upd_same _ _ _

theorem isQueue_first_links {l : Links} {head x : Nat} {rest : List Nat}
    (h : IsQueue l head (x :: rest)) : l.prev x = head ∧ l.next x ∈ head :: rest := by
  obtain ⟨_, hn, hp⟩ := h
  have hp' : Path l.prev head (rest.reverse ++ x :: []) head := by
    simpa using hp
  rw [path_append] at hp'
  refine ⟨hp'.2, ?_⟩
  cases rest with
  | nil =>
    have : l.next x = head := hn.2
    simp [this]
  | cons y ys =>
    have : l.next x = y := hn.2.1
    simp [this]

/-! ## The inbound queue is a FIFO -/

theorem poolInv_init (head : Nat) :
    PoolInv head (PoolState.init head) FifoState.init [] where
  queue := isQueue_init _ _
  deq := rfl
  hold := rfl
  freed := rfl
  split := rfl
  held := by intro w r h; simp [FifoState.init] at h
  idle := by intro r _; rfl
  inj := by intro w v r h; simp [FifoState.init] at h

theorem count_snoc_ne {q r : Nat} (l : List Nat) (h : q ≠ r) :
    (l ++ [r]).count q = l.count q := by
  simp [List.count_append, List.count_cons, Ne.symm h]

theorem count_snoc_self (r : Nat) (l : List Nat) : (l ++ [r]).count r = l.count r + 1 := by
  simp [List.count_append, List.count_cons]

theorem poolInv_push {head : Nat} {s : PoolState} {t : FifoState} {pushed : List Nat}
    {r : Nat} (inv : PoolInv head s t pushed) (hfresh : FreshPush head t (.push r)) :
    PoolInv head (pool_step head s (.push r)) (fifo_step t (.push r)) (pushed ++ [r]) := by
  obtain ⟨hrh, hrq, hrc⟩ := hfresh
  have hq := inv.queue
  have hrx : r ∉ head :: t.queue := by
    intro h
    rcases List.mem_cons.mp h with e | hx
    · exact hrh e
    · exact hrq hx
  have hlast_mem : s.links.prev head ∈ head :: t.queue :=
    path_prev_last hq.2.2 ▸ List.getLast_mem _
  refine ⟨list_add_tail_spec hq hrx, inv.deq, inv.hold, inv.freed, ?_, ?_, inv.idle, inv.inj⟩
  · show pushed ++ [r] = t.dequeued ++ (t.queue ++ [r])
    rw [inv.split, List.append_assoc]
  · intro w q hw
    obtain ⟨hoff, hq2, hq3, hq4⟩ := inv.held w q hw
    have hqr : q ≠ r := by
      intro e
      rw [e] at hq4
      omega
    have hql : q ≠ s.links.prev head := fun e => hoff (e ▸ hlast_mem)
    have hqh : q ≠ head := fun e => hoff (e ▸ List.mem_cons_self _ _)
    refine ⟨?_, ?_, ?_, hq4⟩
    · show q ∉ head :: (t.queue ++ [r])
      intro h
      rcases List.mem_cons.mp h with e | hx
      · exact hqh e
      · rcases List.mem_append.mp hx with h1 | h1
        · exact hoff (List.mem_cons_of_mem _ h1)
        · exact hqr (List.mem_singleton.mp h1)
    · show (list_add_tail r head s.links).next q = q
      rw [list_add_tail_next, upd_other _ _ hql, upd_other _ _ hqr, hq2]
    · show (list_add_tail r head s.links).prev q = q
      rw [list_add_tail_prev, upd_other _ _ hqr, upd_other _ _ hqh, hq3]

theorem poolInv_release {head : Nat} {s : PoolState} {t : FifoState} {pushed : List Nat}
    (w : Nat) (inv : PoolInv head s t pushed) :
    PoolInv head (pool_step head s (.release w)) (fifo_step t (.release w)) pushed := by
  have hsw : s.holding w = t.holding w := by rw [inv.hold]
  cases hw : t.holding w with
  | none =>
    rw [hw] at hsw
    have hT : fifo_step t (.release w) = t := by simp only [fifo_step, hw]
    have hS : pool_step head s (.release w) = s := by simp only [pool_step, hsw]
    rw [hT, hS]
    exact inv
  | some r =>
    rw [hw] at hsw
    have hT : fifo_step t (.release w) =
        { t with holding := fun v => if v = w then none else t.holding v
                 freed := t.freed ++ [r] } := by simp only [fifo_step, hw]
    have hS : pool_step head s (.release w) =
        { s with links := pool_release r s.links
                 holding := fun v => if v = w then none else s.holding v
                 freed := s.freed ++ [r] } := by simp only [pool_step, hsw]
    rw [hT, hS]
    obtain ⟨hoff, hr2, hr3, hr4⟩ := inv.held w r hw
    refine ⟨list_del_detached inv.queue hoff hr2 hr3, inv.deq, ?_, ?_, inv.split, ?_, ?_, ?_⟩
    · show (fun v => if v = w then none else s.holding v) = _
      rw [inv.hold]
    · show s.freed ++ [r] = t.freed ++ [r]
      rw [inv.freed]
    · intro v q hv
      simp only at hv
      split at hv
      · cases hv
      · rename_i hvw
        obtain ⟨hq1, hq2, hq3, hq4⟩ := inv.held v q hv
        have hqr : q ≠ r := fun e => hvw (inv.inj v w r (e ▸ hv) hw)
        have := list_del_detached_next hr2 hr3 hqr
        refine ⟨hq1, this.1.trans hq2, this.2.trans hq3, ?_⟩
        show t.dequeued.count q = (t.freed ++ [r]).count q + 1
        rw [count_snoc_ne _ hqr, hq4]
    · intro q hq
      simp only at hq
      show t.dequeued.count q = (t.freed ++ [r]).count q
      by_cases hqr : q = r
      · rw [hqr, count_snoc_self, hr4]
      · rw [count_snoc_ne _ hqr]
        apply inv.idle
        intro v hv
        by_cases hvw : v = w
        · rw [hvw, hw] at hv
          exact hqr (Option.some.inj hv).symm
        · have := hq v
          rw [if_neg hvw] at this
          exact this hv
    · intro v u q hv hu
      simp only at hv hu
      split at hv
      · cases hv
      · split at hu
        · cases hu
        · exact inv.inj v u q hv hu

theorem poolInv_take {head : Nat} {s : PoolState} {t : FifoState} {pushed : List Nat}
    (w : Nat) (inv : PoolInv head s t pushed) :
    PoolInv head (pool_step head s (.take w)) (fifo_step t (.take w)) pushed := by
  have hsw : s.holding w = t.holding w := by rw [inv.hold]
  cases hw : t.holding w with
  | some r =>
    rw [hw] at hsw
    have hT : fifo_step t (.take w) = t := by simp only [fifo_step, hw]
    have hS : pool_step head s (.take w) = s := by simp only [pool_step, hsw]
    rw [hT, hS]
    exact inv
  | none =>
    rw [hw] at hsw
    cases hqu : t.queue with
    | nil =>
      have hq0 := inv.queue
      rw [hqu] at hq0
      have hempty : list_empty head s.links = true := by
        simp [list_empty, isQueue_nil hq0]
      have hT : fifo_step t (.take w) = t := by simp only [fifo_step, hw, hqu]
      have hS : pool_step head s (.take w) = s := by
        simp only [pool_step, hsw, pool_take, hempty, Bool.not_true, Bool.false_eq_true,
          if_false]
      rw [hT, hS]
      exact inv
    | cons x rest =>
      have hq0 := inv.queue
      rw [hqu] at hq0
      have hfirst := isQueue_first hq0
      have hlinks := isQueue_first_links hq0
      have hempty : list_empty head s.links = false := by
        simp [list_empty, hfirst.1, hfirst.2]
      have hT : fifo_step t (.take w) =
          { t with queue := rest
                   holding := fun v => if v = w then some x else t.holding v
                   dequeued := t.dequeued ++ [x] } := by simp only [fifo_step, hw, hqu]
      have hS : pool_step head s (.take w) =
          { s with links := list_del_init x s.links
                   holding := fun v => if v = w then some x else s.holding v
                   dequeued := s.dequeued ++ [x] } := by
        simp only [pool_step, hsw, pool_take, hempty, Bool.not_false, if_true, list_first_entry,
          hfirst.1]
      rw [hT, hS]
      have hx_idle : ∀ v, t.holding v ≠ some x := by
        intro v hv
        have := (inv.held v x hv).1
        rw [hqu] at this
        exact this (by simp)
      have hoffq : ∀ v q, t.holding v = some q → q ∉ head :: x :: rest := by
        intro v q hv
        have := (inv.held v q hv).1
        rw [hqu] at this
        exact this
      refine ⟨list_del_init_first hq0, ?_, ?_, inv.freed, ?_, ?_, ?_, ?_⟩
      · show s.dequeued ++ [x] = t.dequeued ++ [x]
        rw [inv.deq]
      · show (fun v => if v = w then some x else s.holding v) = _
        rw [inv.hold]
      · show pushed = (t.dequeued ++ [x]) ++ rest
        rw [inv.split, hqu, List.append_assoc]; rfl
      · intro v q hv
        simp only at hv
        split at hv
        · cases hv
          refine ⟨?_, ?_, ?_, ?_⟩
          · have hnd := hq0.1
            simp only [List.nodup_cons, List.mem_cons, not_or] at hnd
            simp only [List.mem_cons, not_or]
            exact ⟨Ne.symm hnd.1.1, hnd.2.1⟩
          · rw [list_del_init_next]; exact upd_same _ _ _
          · rw [list_del_init_prev]; exact upd_same _ _ _
          · show (t.dequeued ++ [x]).count x = t.freed.count x + 1
            rw [count_snoc_self, inv.idle x hx_idle]
        · obtain ⟨_, hq2, hq3, hq4⟩ := inv.held v q hv
          have hoff := hoffq v q hv
          have hqx : q ≠ x := fun e => hoff (by simp [e])
          have hqh : q ≠ head := fun e => hoff (by simp [e])
          have hqn : q ≠ s.links.next x := by
            intro e
            apply hoff
            rcases List.mem_cons.mp hlinks.2 with h1 | h1
            · rw [e, h1]; exact List.mem_cons_self _ _
            · rw [e]; exact List.mem_cons_of_mem _ (List.mem_cons_of_mem _ h1)
          refine ⟨?_, ?_, ?_, ?_⟩
          · intro h
            apply hoff
            rcases List.mem_cons.mp h with e | h1
            · exact absurd e hqh
            · exact List.mem_cons_of_mem _ (List.mem_cons_of_mem _ h1)
          · rw [list_del_init_next, upd_other _ _ hqx, hlinks.1, upd_other _ _ hqh, hq2]
          · rw [list_del_init_prev, upd_other _ _ hqx, upd_other _ _ hqn, hq3]
          · show (t.dequeued ++ [x]).count q = t.freed.count q + 1
            rw [count_snoc_ne _ hqx, hq4]
      · intro q hq
        simp only at hq
        have hqx : q ≠ x := by
          intro e
          have := hq w
          rw [if_pos rfl, e] at this
          exact this rfl
        show (t.dequeued ++ [x]).count q = t.freed.count q
        rw [count_snoc_ne _ hqx]
        apply inv.idle
        intro v hv
        by_cases hvw : v = w
        · rw [hvw, hw] at hv; cases hv
        · have := hq v
          rw [if_neg hvw] at this
          exact this hv
      · intro v u q hv hu
        simp only at hv hu
        split at hv
        · rename_i hvw
          cases hv
          split at hu
          · rename_i huw; rw [hvw, huw]
          · exact absurd hu (hx_idle u)
        · split at hu
          · cases hu
            exact absurd hv (hx_idle v)
          · exact inv.inj v u q hv hu

theorem pushes_cons (op : QueueOp) (ops : List QueueOp) :
    pushes (op :: ops) = pushes [op] ++ pushes ops := by
  cases op <;> simp [pushes]

theorem poolInv_step {head : Nat} {s : PoolState} {t : FifoState} {pushed : List Nat}
    (op : QueueOp) (inv : PoolInv head s t pushed) (hfresh : FreshPush head t op) :
    PoolInv head (pool_step head s op) (fifo_step t op) (pushed ++ pushes [op]) := by
  cases op with
  | push r => exact poolInv_push inv hfresh
  | take w => simpa [pushes] using poolInv_take w inv
  | release w => simpa [pushes] using poolInv_release w inv

theorem poolInv_fold (head : Nat) :
    ∀ (ops : List QueueOp) (s : PoolState) (t : FifoState) (pushed : List Nat),
      PoolInv head s t pushed → PushesFresh head t ops →
      PoolInv head (ops.foldl (pool_step head) s) (ops.foldl fifo_step t)
        (pushed ++ pushes ops)
  | [], s, t, pushed, inv, _ => by simpa [pushes] using inv
  | op :: ops, s, t, pushed, inv, hfresh => by
    have h := poolInv_fold head ops _ _ _ (poolInv_step op inv hfresh.1) hfresh.2
    rw [List.append_assoc, ← pushes_cons] at h
    exact h

/-- C7. The shared inbound queue is a FIFO. Take any sequential interleaving
of pushes (`dnet_schedule_io`), dequeues and second removals (the two locked
sections of `dnet_io_process_pool`) in which every pushed request is a live
object of its own (`PushesFresh`: not the list head, not already queued, not
in the hands of a worker; an address may come back once it was freed). Then
the list in memory behaves as the queue of the spec run on the same
interleaving: it holds exactly the spec queue's requests, in the same order,
and the requests dequeued, the requests freed and what each worker holds are
the same. The requests pushed so far are exactly the requests dequeued so far,
in dequeue order, followed by the queue's contents, so requests leave in push
order and no push is dequeued twice (with distinct requests, the dequeued ones
are distinct). A dequeue by an idle worker on a non-empty queue removes the
head and hands it to that worker, and a dequeue on an empty queue removes
nothing. The `list_del` a worker performs on the request it already unlinked
with `list_del_init` leaves the queue holding the same requests and dequeues
nothing; it poisons the two link fields of that request, which is then freed
and no longer held. -/
theorem inbound_queue_fifo (recv_list : Nat) (ops : List QueueOp)
    (hfresh : PushesFresh recv_list FifoState.init ops) :
    IsQueue (pool_run recv_list ops).links recv_list (fifo_run ops).queue ∧
    (pool_run recv_list ops).dequeued = (fifo_run ops).dequeued ∧
    (pool_run recv_list ops).freed = (fifo_run ops).freed ∧
    (pool_run recv_list ops).holding = (fifo_run ops).holding ∧
    pushes ops = (pool_run recv_list ops).dequeued ++ (fifo_run ops).queue ∧
    ((pushes ops).Nodup → (pool_run recv_list ops).dequeued.Nodup) ∧
    (∀ w x rest, (pool_run recv_list ops).holding w = none →
      (fifo_run ops).queue = x :: rest →
      (pool_step recv_list (pool_run recv_list ops) (.take w)).dequeued =
        (pool_run recv_list ops).dequeued ++ [x] ∧
      (pool_step recv_list (pool_run recv_list ops) (.take w)).holding w = some x ∧
      IsQueue (pool_step recv_list (pool_run recv_list ops) (.take w)).links recv_list rest) ∧
    (∀ w, (fifo_run ops).queue = [] →
      (pool_step recv_list (pool_run recv_list ops) (.take w)).dequeued =
        (pool_run recv_list ops).dequeued) ∧
    (∀ w, IsQueue (pool_step recv_list (pool_run recv_list ops) (.release w)).links
          recv_list (fifo_run ops).queue ∧
        (pool_step recv_list (pool_run recv_list ops) (.release w)).dequeued =
          (pool_run recv_list ops).dequeued) ∧
    (∀ w r, (pool_run recv_list ops).holding w = some r →
      (pool_step recv_list (pool_run recv_list ops) (.release w)).links.next r = LIST_POISON1 ∧
      (pool_step recv_list (pool_run recv_list ops) (.release w)).links.prev r = LIST_POISON2 ∧
      (pool_step recv_list (pool_run recv_list ops) (.release w)).freed =
        (pool_run recv_list ops).freed ++ [r] ∧
      (pool_step recv_list (pool_run recv_list ops) (.release w)).holding w = none) := by
  have inv : PoolInv recv_list (pool_run recv_list ops) (fifo_run ops) (pushes ops) := by
    have := poolInv_fold recv_list ops _ _ [] (poolInv_init recv_list) hfresh
    simpa [pool_run, fifo_run] using this
  refine ⟨inv.queue, inv.deq, inv.freed, inv.hold, ?_, ?_, ?_, ?_, ?_, ?_⟩
  · rw [inv.deq]; exact inv.split
  · intro hnd
    rw [inv.split] at hnd
    rw [inv.deq]
    exact (List.nodup_append.mp hnd).1
  · intro w x rest hw hq
    have hw1 : (fifo_run ops).holding w = none := by rw [← inv.hold]; exact hw
    have inv1 := poolInv_take w inv
    have hstep : fifo_step (fifo_run ops) (.take w) =
        { fifo_run ops with
          queue := rest
          holding := fun v => if v = w then some x else (fifo_run ops).holding v
          dequeued := (fifo_run ops).dequeued ++ [x] } := by
      simp only [fifo_step, hw1, hq]
    rw [hstep] at inv1
    refine ⟨?_, ?_, inv1.queue⟩
    · rw [inv1.deq, inv.deq]
    · rw [inv1.hold]
      exact if_pos rfl
  · intro w hq
    have inv1 := poolInv_take w inv
    have hstep : (fifo_step (fifo_run ops) (.take w)).dequeued = (fifo_run ops).dequeued := by
      simp only [fifo_step, hq]
      cases (fifo_run ops).holding w <;> rfl
    rw [inv1.deq, hstep, inv.deq]
  · intro w
    have inv1 := poolInv_release w inv
    have hq : (fifo_step (fifo_run ops) (.release w)).queue = (fifo_run ops).queue := by
      simp only [fifo_step]
      cases (fifo_run ops).holding w <;> rfl
    have hd : (fifo_step (fifo_run ops) (.release w)).dequeued = (fifo_run ops).dequeued := by
      simp only [fifo_step]
      cases (fifo_run ops).holding w <;> rfl
    refine ⟨?_, ?_⟩
    · have := inv1.queue
      rw [hq] at this
      exact this
    · rw [inv1.deq, hd, inv.deq]
  · intro w r hw
    have hS : pool_step recv_list (pool_run recv_list ops) (.release w) =
        { pool_run recv_list ops with
          links := pool_release r (pool_run recv_list ops).links
          holding := fun v => if v = w then none else (pool_run recv_list ops).holding v
          freed := (pool_run recv_list ops).freed ++ [r] } := by
      simp only [pool_step, hw]
    rw [hS]
    refine ⟨?_, ?_, rfl, if_pos rfl⟩
    · show (list_del r _).next r = LIST_POISON1
      rw [list_del_next]; exact upd_same _ _ _
    · show (list_del r _).prev r = LIST_POISON2
      rw [list_del_prev]; exact upd_same _ _ _

/-- Witness of `inbound_queue_fifo`: two workers; request 10 is pushed,
dequeued and freed, and its address is pushed again while request 20 is still
queued. -/
theorem inbound_queue_fifo_witness :
    PushesFresh 1 FifoState.init demoOps ∧
    IsQueue (pool_run 1 demoOps).links 1 [30] ∧
    (pool_run 1 demoOps).dequeued = [10, 20, 10] ∧
    (pool_run 1 demoOps).freed = [10] ∧
    pushes demoOps = (pool_run 1 demoOps).dequeued ++ [30] :=
  have h := inbound_queue_fifo 1 demoOps (by decide)
  have hq : (fifo_run demoOps).queue = [30] := by decide
  ⟨by decide, hq ▸ h.1, h.2.1.trans (by decide), h.2.2.1.trans (by decide), hq ▸ h.2.2.2.2.1⟩

/-! ## Facts about the receive state machine -/

theorem writeAt_length {buf : List Nat} {off : Nat} {bs : List Nat}
    (h : off + bs.length ≤ buf.length) : (writeAt buf off bs).length = buf.length := by
  simp only [writeAt, List.length_append, List.length_take, List.length_drop]
  omega

theorem writeAt_take {buf : List Nat} {off : Nat} {bs : List Nat}
    (h : off + bs.length ≤ buf.length) :
    (writeAt buf off bs).take (off + bs.length) = buf.take off ++ bs := by
  have h1 : bs.take (buf.length - off) = bs := List.take_of_length_le (by omega)
  have h2 : (buf.take off ++ bs).length = off + bs.length := by
    simp only [List.length_append, List.length_take]; omega
  rw [writeAt, h1, List.take_left' h2]

theorem recv_size_eq {e o : Nat} (h : o ≤ e) (he : e < 2 ^ 64) :
    (e + 2 ^ 64 - o) % 2 ^ 64 = e - o := by
  have : e + 2 ^ 64 - o = (e - o) + 2 ^ 64 := by omega
  rw [this, Nat.add_mod_right, Nat.mod_eq_of_lt (by omega)]

/-- A `recv` that fails with `EAGAIN` or `EINTR` makes the receive step leave
with `-EAGAIN`; only the socket and `errno` changed. -/
theorem recv_chunk_benign_fail {w : World} {e : Int} {rest : List SockEvent}
    (hs : w.sock = .fail e :: rest) (he : e = EAGAIN ∨ e = EINTR)
    (hsz : (w.st.rcv_end + 2 ^ 64 - w.st.rcv_offset) % 2 ^ 64 ≠ 0) :
    recv_chunk w = .error (-EAGAIN,
      { w with recv_calls := w.recv_calls + 1, errno := e, sock := rest }) := by
  unfold recv_chunk
  simp only [hsz, ne_eq, not_false_eq_true, if_true, recv, hs]
  rcases he with rfl | rfl <;> simp [EAGAIN, EINTR]

/-- Header phase, bytes pending: the receive step stores them in `rcv_cmd` and
advances the cursor. -/
theorem hdr_chunk {L : Layout} (wf : L.WF) {msg : List Nat} {k : Nat} {w : World}
    {bs : List Nat} {rest : List SockEvent} (inv : HdrInv L msg k w) (hk : k < L.cmd_size)
    (hs : w.sock = .data bs :: rest) (hbs : bs ≠ []) (hpre : bs <+: msg.drop k) :
    ∃ w1, recv_chunk w = .ok w1 ∧
      HdrInv L msg (k + min (min (L.cmd_size - k) MAX_RW_COUNT) bs.length) w1 ∧
      SameFrame w w1 ∧ w1.mallocs = w.mallocs ∧ w1.recv_calls = w.recv_calls + 1 ∧
      w1.sock = leftover bs (min (min (L.cmd_size - k) MAX_RW_COUNT) bs.length) rest := by
  have hfits := wf.fits
  have hsize : (w.st.rcv_end + 2 ^ 64 - w.st.rcv_offset) % 2 ^ 64 = L.cmd_size - k := by
    rw [inv.rcv_end, inv.offset]
    exact recv_size_eq (by omega) (by omega)
  have hlen_pos : 0 < bs.length := List.length_pos.mpr hbs
  generalize hn : min (min (L.cmd_size - k) MAX_RW_COUNT) bs.length = n
  have hn1 : 0 < n := by
    rw [← hn]; simp only [MAX_RW_COUNT]; omega
  have hn2 : n ≤ L.cmd_size - k := by rw [← hn]; omega
  have hn3 : n ≤ bs.length := by rw [← hn]; omega
  refine ⟨{ w with
      recv_calls := w.recv_calls + 1
      sock := leftover bs n rest
      st := { w.st with rcv_cmd := writeAt w.st.rcv_cmd k (bs.take n), rcv_offset := k + n } },
    ?_, ?_, ?_, rfl, rfl, rfl⟩
  · unfold recv_chunk
    have hflag : w.st.rcv_flags &&& DNET_IO_CMD ≠ 0 := by rw [inv.flags]; decide
    simp only [hsize, hflag, ne_eq, not_false_eq_true, if_true, recv, hs, World.store, hn]
    have h0 : L.cmd_size - k ≠ 0 := by omega
    have h1 : ¬ ((n : Int) < 0) := by omega
    have h2 : ¬ ((n : Int) = 0) := by omega
    simp only [h0, not_false_eq_true, if_true, h1, h2, if_false, Int.toNat_ofNat, inv.offset]
    rw [Nat.mod_eq_of_lt (by omega)]
  · have hblen : (bs.take n).length = n := by simp [List.length_take, hn3]
    have hw : k + (bs.take n).length ≤ w.st.rcv_cmd.length := by rw [hblen, inv.len]; omega
    refine ⟨inv.flags, rfl, inv.rcv_end, inv.data, ?_, ?_⟩
    · show (writeAt w.st.rcv_cmd k (bs.take n)).length = L.cmd_size
      rw [writeAt_length hw, inv.len]
    · show (writeAt w.st.rcv_cmd k (bs.take n)).take (k + n) = msg.take (k + n)
      have := writeAt_take hw
      rw [hblen] at this
      rw [this, inv.bytes]
      obtain ⟨t, ht⟩ := hpre
      have h3 : bs.take n = (msg.drop k).take n := by
        rw [← ht, List.take_append_of_le_length hn3]
      rw [h3, List.take_add]
  · exact ⟨rfl, rfl, rfl, rfl, rfl, rfl⟩


/-- Body phase, bytes pending: the receive step stores them in the request and
advances the cursor. -/
theorem body_chunk {L : Layout} {a : Nat} {c payload : List Nat} {j : Nat} {w : World}
    {bs : List Nat} {rest : List SockEvent}
    (hfit : L.req_size + L.cmd_size + payload.length < 2 ^ 64)
    (inv : BodyInv L a c payload j w) (hj : j < payload.length)
    (hs : w.sock = .data bs :: rest) (hbs : bs ≠ []) (hpre : bs <+: payload.drop j) :
    ∃ w1, recv_chunk w = .ok w1 ∧
      BodyInv L a c payload (j + min (min (payload.length - j) MAX_RW_COUNT) bs.length) w1 ∧
      SameFrame w w1 ∧ w1.recv_calls = w.recv_calls + 1 ∧
      w1.sock = leftover bs (min (min (payload.length - j) MAX_RW_COUNT) bs.length) rest := by
  have hsize : (w.st.rcv_end + 2 ^ 64 - w.st.rcv_offset) % 2 ^ 64 = payload.length - j := by
    rw [inv.rcv_end, inv.offset, recv_size_eq (by omega) (by omega)]
    omega
  have hlen_pos : 0 < bs.length := List.length_pos.mpr hbs
  generalize hn : min (min (payload.length - j) MAX_RW_COUNT) bs.length = n
  have hn1 : 0 < n := by
    rw [← hn]; simp only [MAX_RW_COUNT]; omega
  have hn2 : n ≤ payload.length - j := by rw [← hn]; omega
  have hn3 : n ≤ bs.length := by rw [← hn]; omega
  obtain ⟨r, hr, hst, hhdr, hhs, hdata, hds, hmlen, hmem⟩ := inv.obj
  refine ⟨{ w with
      recv_calls := w.recv_calls + 1
      sock := leftover bs n rest
      heap := fun x => if x = a then
          some { r with mem := writeAt r.mem (L.req_size + L.cmd_size + j) (bs.take n) }
        else w.heap x
      st := { w.st with rcv_offset := L.req_size + L.cmd_size + j + n } },
    ?_, ?_, ?_, rfl, rfl⟩
  · unfold recv_chunk
    have hflag : ¬ (w.st.rcv_flags &&& DNET_IO_CMD ≠ 0) := by rw [inv.flags]; decide
    simp only [hsize, hflag, if_false, recv, hs, World.store, hn, inv.data, hr]
    have h0 : payload.length - j ≠ 0 := by omega
    have h1 : ¬ ((n : Int) < 0) := by omega
    have h2 : ¬ ((n : Int) = 0) := by omega
    simp only [h0, ne_eq, not_false_eq_true, if_true, h1, h2, if_false, Int.toNat_ofNat,
      inv.offset]
    rw [Nat.mod_eq_of_lt (by omega)]
  · have hblen : (bs.take n).length = n := by simp [List.length_take, hn3]
    have hw : L.req_size + L.cmd_size + j + (bs.take n).length ≤ r.mem.length := by
      rw [hblen, hmlen]; omega
    refine ⟨inv.flags, Nat.add_assoc _ _ _, inv.rcv_end, inv.data, ?_⟩
    refine ⟨_, if_pos rfl, hst, hhdr, hhs, hdata, hds, ?_, ?_⟩
    · show (writeAt r.mem _ (bs.take n)).length = _
      rw [writeAt_length hw, hmlen]
    · show (writeAt r.mem _ (bs.take n)).take (L.req_size + L.cmd_size + (j + n)) = _
      have := writeAt_take hw
      rw [hblen] at this
      rw [← Nat.add_assoc, this, hmem]
      obtain ⟨t, ht⟩ := hpre
      have h3 : bs.take n = (payload.drop j).take n := by
        rw [← ht, List.take_append_of_le_length hn3]
      rw [h3, List.take_add]
      simp only [List.append_assoc]
  · exact ⟨rfl, rfl, rfl, rfl, rfl, rfl⟩

/-- The end of `dnet_process_recv_single` on a fully assembled request. -/
theorem recv_complete_spec {L : Layout} {a : Nat} {c payload q : List Nat} {w : World}
    (hc : c.length = L.cmd_size) (hr : Ready L a c payload w)
    (hq : IsQueue w.links w.recv_list q) (ha : a ∉ w.recv_list :: q) :
    Received L w a c payload q (recv_complete L w) ∧ (recv_complete L w).2.sock = w.sock ∧
      (recv_complete L w).2.recv_calls = w.recv_calls ∧
      (recv_complete L w).2.mallocs = w.mallocs ∧
      (recv_complete L w).2.resets = w.resets := by
  obtain ⟨r, hra, hst, hhdr, hhs, hdata, hds, hmem⟩ := hr.obj
  have hdata0 := hr.data
  refine ⟨⟨rfl, ?_, ?_, ?_, ?_, ?_⟩, ?_, ?_, ?_, ?_⟩
  · simp [recv_complete, dnet_schedule_command, AwaitingHeader]
  · simp only [recv_complete, dnet_schedule_command, ne_eq, not_true_eq_false, if_false,
      dnet_schedule_io, hdata0]
    exact list_add_tail_spec hq ha
  · simp [recv_complete, dnet_schedule_command]
  · simp [recv_complete, dnet_schedule_command]
  · refine ⟨{ r with st := w.self }, ?_, rfl, hhs, hds, hdata, ?_, ?_⟩
    · simp [recv_complete, dnet_schedule_command, hdata0, hra]
    · show (r.mem.drop (r.header - a)).take r.hsize = c
      rw [hhdr, hhs, hmem, Nat.add_sub_cancel_left, List.append_assoc,
        List.drop_left' (List.length_replicate _ _), ← hc, List.take_left]
    · show (r.mem.drop (r.data - a)).take r.dsize = payload
      rw [hdata, hds, hmem]
      by_cases hp : payload = []
      · simp [hp]
      · rw [if_neg hp, Nat.add_assoc, Nat.add_sub_cancel_left,
          List.drop_left' (by simp [hc]), List.take_length]
  · simp [recv_complete, dnet_schedule_command]
  · simp [recv_complete, dnet_schedule_command]
  · simp [recv_complete, dnet_schedule_command]
  · simp [recv_complete, dnet_schedule_command]

theorem pass_error {L : Layout} {f : Nat} {w w1 : World} {err : Int}
    (h : recv_chunk w = .error (err, w1)) :
    dnet_process_recv_single L (f + 1) w = some (recv_out L err w1) := by
  simp only [dnet_process_recv_single, h]

theorem pass_continue {L : Layout} {f : Nat} {w w1 : World} (h : recv_chunk w = .ok w1)
    (hne : w1.st.rcv_offset ≠ w1.st.rcv_end) :
    dnet_process_recv_single L (f + 1) w = dnet_process_recv_single L f w1 := by
  simp only [dnet_process_recv_single, h, ne_eq, hne, not_false_eq_true, if_true]

theorem pass_body_done {L : Layout} {f : Nat} {w w1 : World} (h : recv_chunk w = .ok w1)
    (heq : w1.st.rcv_offset = w1.st.rcv_end) (hflag : w1.st.rcv_flags = 0) :
    dnet_process_recv_single L (f + 1) w = some (recv_complete L w1) := by
  have : ¬ (0 &&& DNET_IO_CMD ≠ 0) := by decide
  simp only [dnet_process_recv_single, h, ne_eq, heq, not_true_eq_false, if_false, hflag, this]

theorem hdr_full_cmd {L : Layout} {msg hdr : List Nat} {w1 : World}
    (inv : HdrInv L msg L.cmd_size w1) (hmsg : msg.take L.cmd_size = hdr) :
    w1.st.rcv_cmd = hdr := by
  have h1 := inv.bytes
  rw [List.take_of_length_le (le_of_eq inv.len), hmsg] at h1
  exact h1

theorem take_header {hdr payload : List Nat} {n : Nat} (hh : hdr.length = n) :
    (hdr ++ payload).take n = hdr := by
  rw [← hh, List.take_left]

/-- The pass that receives the last header byte, when the allocation fails. -/
theorem pass_header_nomem {L : Layout} {msg : List Nat} {f : Nat} {w w1 : World}
    (h : recv_chunk w = .ok w1) (inv : HdrInv L msg L.cmd_size w1)
    (hm : w1.mallocs.head? = none ∨ w1.mallocs.head? = some 0) :
    ∃ w3, dnet_process_recv_single L (f + 1) w = some (recv_out L (-ENOMEM) w3) ∧
      w3.st.rcv_data = 0 ∧ w3.heap = w1.heap ∧ w3.links = w1.links ∧ w3.freed = w1.freed ∧
      w3.resets = w1.resets ∧ w3.sock = w1.sock ∧ w3.recv_calls = w1.recv_calls ∧
      w3.st.refcnt = w1.st.refcnt ∧ w3.self = w1.self ∧ w3.recv_list = w1.recv_list := by
  have heq : w1.st.rcv_offset = w1.st.rcv_end := by rw [inv.offset, inv.rcv_end]
  have hflag : w1.st.rcv_flags &&& DNET_IO_CMD ≠ 0 := by rw [inv.flags]; decide
  cases hml : w1.mallocs with
  | nil =>
    refine Exists.intro ?w (And.intro ?h1 ?h2)
    case h1 =>
      simp only [dnet_process_recv_single, h, ne_eq, heq, not_true_eq_false, if_false, hflag,
        not_false_eq_true, if_true, malloc, hml]
      exact rfl
    case h2 => exact ⟨inv.data, rfl, rfl, rfl, rfl, rfl, rfl, rfl, rfl, rfl⟩
  | cons a ms =>
    have ha : a = 0 := by simpa [hml] using hm
    subst ha
    refine Exists.intro ?w0 (And.intro ?h10 ?h20)
    case h10 =>
      simp only [dnet_process_recv_single, h, ne_eq, heq, not_true_eq_false, if_false, hflag,
        not_false_eq_true, if_true, malloc, hml]
      exact rfl
    case h20 => exact ⟨inv.data, rfl, rfl, rfl, rfl, rfl, rfl, rfl, rfl, rfl⟩

theorem alloc_mem {L : Layout} {c : List Nat} (n : Nat) (hc : c.length = L.cmd_size) :
    (writeAt (List.replicate (L.req_size + L.cmd_size + n) 0) L.req_size
        (c.take L.cmd_size)).take (L.req_size + L.cmd_size) = List.replicate L.req_size 0 ++ c ∧
    (writeAt (List.replicate (L.req_size + L.cmd_size + n) 0) L.req_size
        (c.take L.cmd_size)).length = L.req_size + L.cmd_size + n := by
  have hct : c.take L.cmd_size = c := List.take_of_length_le (le_of_eq hc)
  have hw : L.req_size + c.length ≤ (List.replicate (L.req_size + L.cmd_size + n) 0).length := by
    rw [List.length_replicate, hc]; omega
  rw [hct]
  constructor
  · have := writeAt_take hw
    rw [hc] at this
    rw [this, List.take_replicate]
    congr 2
    omega
  · rw [writeAt_length hw, List.length_replicate]

/-- The pass that receives the last header byte of a message without payload:
the request is queued by the same pass. -/
theorem pass_header_zero {L : Layout} (wf : L.WF) {msg hdr : List Nat} {f : Nat} {w w1 : World}
    {a : Nat} {ms : List Nat}
    (h : recv_chunk w = .ok w1) (inv : HdrInv L msg L.cmd_size w1)
    (hmsg : msg.take L.cmd_size = hdr)
    (hh : hdr.length = L.cmd_size) (hm : w1.mallocs = a :: ms) (ha : a ≠ 0)
    (hsz : L.size (L.convert hdr) % 2 ^ 64 = 0) :
    ∃ w4, dnet_process_recv_single L (f + 1) w = some (recv_complete L w4) ∧
      Ready L a (L.convert hdr) [] w4 ∧ SameFrame w1 w4 ∧ w4.mallocs = ms ∧
      w4.sock = w1.sock ∧ w4.recv_calls = w1.recv_calls := by
  have heq : w1.st.rcv_offset = w1.st.rcv_end := by rw [inv.offset, inv.rcv_end]
  have hflag : w1.st.rcv_flags &&& DNET_IO_CMD ≠ 0 := by rw [inv.flags]; decide
  have hcmd := hdr_full_cmd inv hmsg
  have hc : (L.convert hdr).length = L.cmd_size := by rw [wf.convert_len, hh]
  have hfits := wf.fits
  have hal : (0 + L.cmd_size + L.req_size) % 2 ^ 64 = L.req_size + L.cmd_size + 0 := by
    rw [Nat.mod_eq_of_lt (by omega)]; omega
  refine Exists.intro ?w (And.intro ?h1 ?h2)
  case h1 =>
    simp only [dnet_process_recv_single, h, ne_eq, heq, not_true_eq_false, if_false, hflag,
      not_false_eq_true, if_true, malloc, hm, ha, hcmd, hsz]
    exact rfl
  refine ⟨⟨rfl, _, if_pos rfl, rfl, rfl, rfl, ?_, rfl, ?_⟩, ⟨rfl, rfl, rfl, rfl, rfl, rfl⟩,
    rfl, rfl, rfl⟩
  · simp
  · show writeAt _ _ _ = _
    rw [hal]
    have := alloc_mem 0 hc
    have h1 := this.1
    rw [List.take_of_length_le (show _ ≤ L.req_size + L.cmd_size from le_of_eq this.2)] at h1
    rw [h1, List.append_nil]

/-- The pass that receives the last header byte of a message with a payload:
the request is allocated and the connection awaits the body. -/
theorem pass_header_body {L : Layout} (wf : L.WF) {msg hdr payload : List Nat} {f : Nat}
    {w w1 : World} {a : Nat} {ms : List Nat}
    (h : recv_chunk w = .ok w1) (inv : HdrInv L msg L.cmd_size w1)
    (hmsg : msg.take L.cmd_size = hdr)
    (hh : hdr.length = L.cmd_size) (hm : w1.mallocs = a :: ms) (ha : a ≠ 0)
    (hsz : L.size (L.convert hdr) % 2 ^ 64 = payload.length) (hp : payload.length ≠ 0)
    (hfit : L.req_size + L.cmd_size + payload.length < 2 ^ 64) :
    ∃ w5, dnet_process_recv_single L (f + 1) w = dnet_process_recv_single L f w5 ∧
      BodyInv L a (L.convert hdr) payload 0 w5 ∧ SameFrame w1 w5 ∧ w5.mallocs = ms ∧
      w5.sock = w1.sock ∧ w5.recv_calls = w1.recv_calls := by
  have heq : w1.st.rcv_offset = w1.st.rcv_end := by rw [inv.offset, inv.rcv_end]
  have hflag : w1.st.rcv_flags &&& DNET_IO_CMD ≠ 0 := by rw [inv.flags]; decide
  have hcmd := hdr_full_cmd inv hmsg
  have hc : (L.convert hdr).length = L.cmd_size := by rw [wf.convert_len, hh]
  have hfits := wf.fits
  have hal : (payload.length + L.cmd_size + L.req_size) % 2 ^ 64 =
      L.req_size + L.cmd_size + payload.length := by
    rw [Nat.mod_eq_of_lt (by omega)]; omega
  have hmem := alloc_mem payload.length hc
  refine Exists.intro ?w (And.intro ?h1 ?h2)
  case h1 =>
    simp only [dnet_process_recv_single, h, ne_eq, heq, not_true_eq_false, if_false, hflag,
      not_false_eq_true, if_true, malloc, hm, ha, hcmd, hsz, hp]
    exact rfl
  refine ⟨⟨?_, ?_, ?_, rfl, _, if_pos rfl, rfl, rfl, rfl, ?_, rfl, ?_, ?_⟩,
    ⟨rfl, rfl, rfl, rfl, rfl, rfl⟩, rfl, rfl, rfl⟩
  · show w1.st.rcv_flags &&& (0xffffffff - DNET_IO_CMD) = 0
    rw [inv.flags]; decide
  · show (L.req_size + L.cmd_size) % 2 ^ 64 = L.req_size + L.cmd_size + 0
    rw [Nat.mod_eq_of_lt hfits]; rfl
  · show ((L.req_size + L.cmd_size) % 2 ^ 64 + payload.length) % 2 ^ 64 = _
    rw [Nat.mod_eq_of_lt hfits, Nat.mod_eq_of_lt hfit]
  · show a + L.req_size + L.cmd_size = a + L.req_size + L.cmd_size
    rfl
  · show (writeAt _ _ _).length = _
    rw [hal]; exact hmem.2
  · show (writeAt _ _ _).take _ = _
    rw [hal, Nat.add_zero, hmem.1, List.take_zero, List.append_nil]

theorem SameFrame.trans {w w1 w2 : World} (h1 : SameFrame w w1) (h2 : SameFrame w1 w2) :
    SameFrame w w2 :=
  ⟨h2.self.trans h1.self, h2.recv_list.trans h1.recv_list, h2.links.trans h1.links,
    h2.freed.trans h1.freed, h2.refcnt.trans h1.refcnt, h2.resets.trans h1.resets⟩

theorem Received.transfer {L : Layout} {w0 w : World} {a : Nat} {c payload q : List Nat}
    {res : Int × World} (hf : SameFrame w0 w) (h : Received L w a c payload q res) :
    Received L w0 a c payload q res := by
  obtain ⟨h1, h2, h3, h4, h5, h6⟩ := h
  rw [hf.recv_list] at h3
  rw [hf.refcnt] at h4
  rw [hf.freed] at h5
  rw [hf.self] at h6
  exact ⟨h1, h2, h3, h4, h5, h6⟩

theorem leftover_benign {bs : List Nat} {n : Nat} {rest : List SockEvent}
    (h : ∀ e ∈ SockEvent.data bs :: rest, e.benign) : ∀ e ∈ leftover bs n rest, e.benign := by
  intro e he
  unfold leftover at he
  split at he
  · exact h e (List.mem_cons_of_mem _ he)
  · rename_i hne
    rcases List.mem_cons.mp he with rfl | he
    · show bs.drop n ≠ []
      intro h0
      exact hne (by simp [h0])
    · exact h e (List.mem_cons_of_mem _ he)

theorem leftover_stream (bs : List Nat) {n : Nat} (rest : List SockEvent) (hn : n ≤ bs.length) :
    stream (leftover bs n rest) = (stream (SockEvent.data bs :: rest)).drop n := by
  have hd : (bs ++ stream rest).drop n = bs.drop n ++ stream rest :=
    List.drop_append_of_le_length hn
  unfold leftover
  split
  · rename_i h0
    have : bs.drop n = [] := by simpa using h0
    simp [stream, hd, this]
  · simp [stream, hd]

theorem leftover_cost (bs : List Nat) {n : Nat} (rest : List SockEvent) (hn : n ≤ bs.length)
    (hn1 : 0 < n) :
    (leftover bs n rest).length + (stream (leftover bs n rest)).length + 1 ≤
      (SockEvent.data bs :: rest).length + (stream (SockEvent.data bs :: rest)).length ∧
    (leftover bs n rest).length ≤ (SockEvent.data bs :: rest).length := by
  rw [leftover_stream bs rest hn]
  unfold leftover
  split <;> simp [stream] <;> omega

theorem resume_continue {L : Layout} {fuel rounds f : Nat} {w w1 : World}
    (h : dnet_process_recv_single L (f + 1) w = dnet_process_recv_single L f w1) :
    resume L fuel rounds (f + 1) w = resume L fuel rounds f w1 := by
  simp only [resume, h]

theorem resume_again {L : Layout} {fuel rounds f : Nat} {w w1 : World}
    (h : dnet_process_recv_single L (f + 1) w = some (-EAGAIN, w1)) :
    resume L fuel (rounds + 1) (f + 1) w = resume L fuel rounds fuel w1 := by
  simp only [resume, h, if_true, recv_message]

theorem resume_done {L : Layout} {fuel rounds f : Nat} {w w1 : World}
    (h : dnet_process_recv_single L (f + 1) w = some (recv_complete L w1)) :
    resume L fuel rounds (f + 1) w = some (recv_complete L w1) := by
  have : ¬ ((0 : Int) = -EAGAIN) := by decide
  simp only [resume, h, recv_complete, this, if_false]

theorem recv_out_again (L : Layout) (w : World) : recv_out L (-EAGAIN) w = (-EAGAIN, w) := by
  simp [recv_out]

theorem body_ready {L : Layout} {a : Nat} {c payload : List Nat} {w : World}
    (inv : BodyInv L a c payload payload.length w) (hp : payload ≠ []) :
    Ready L a c payload w := by
  obtain ⟨r, hr, hst, hhdr, hhs, hdata, hds, hmlen, hmem⟩ := inv.obj
  refine ⟨inv.data, r, hr, hst, hhdr, hhs, ?_, hds, ?_⟩
  · rw [if_neg hp, hdata]
  · rw [List.take_of_length_le (le_of_eq hmlen), List.take_length] at hmem
    exact hmem

theorem chunk_size_bounds {r bl : Nat} (hr : 0 < r) (hb : 0 < bl) :
    0 < min (min r MAX_RW_COUNT) bl ∧ min (min r MAX_RW_COUNT) bl ≤ r ∧
      min (min r MAX_RW_COUNT) bl ≤ bl := by
  simp only [MAX_RW_COUNT]
  omega

/-- From the awaiting-body phase, the remaining payload bytes arriving in any
chunks, with `EAGAIN`/`EINTR` failures in between, complete the request. -/
theorem body_run {L : Layout} {w0 : World} {a : Nat} {c payload q : List Nat}
    (hfit : L.req_size + L.cmd_size + payload.length < 2 ^ 64) (hc : c.length = L.cmd_size)
    (hq : IsQueue w0.links w0.recv_list q) (ha : a ∉ w0.recv_list :: q) (fuel : Nat) :
    ∀ (m : Nat) (evs : List SockEvent) (j : Nat) (w : World) (f rounds : Nat),
      evs.length + (stream evs).length ≤ m → BodyInv L a c payload j w → SameFrame w0 w →
      j < payload.length → w.sock = evs → (∀ e ∈ evs, e.benign) → stream evs = payload.drop j →
      m ≤ f → m ≤ fuel → evs.length ≤ rounds →
      ∃ res, resume L fuel rounds f w = some res ∧ Received L w0 a c payload q res := by
  intro m
  induction m with
  | zero =>
    intro evs j w f rounds hm _ _ hj _ _ hstream _ _ _
    have h1 : (stream evs).length = 0 := by omega
    rw [hstream, List.length_drop] at h1
    omega
  | succ m ih =>
    intro evs j w f rounds hm inv hf hj hs hben hstream hmf hmfuel hrounds
    have hsz : (w.st.rcv_end + 2 ^ 64 - w.st.rcv_offset) % 2 ^ 64 ≠ 0 := by
      rw [inv.rcv_end, inv.offset, recv_size_eq (by omega) (by omega)]
      omega
    obtain ⟨f, rfl⟩ : ∃ f1, f = f1 + 1 := ⟨f - 1, by omega⟩
    cases evs with
    | nil =>
      have h1 : (stream ([] : List SockEvent)).length = 0 := rfl
      rw [hstream, List.length_drop] at h1
      omega
    | cons ev rest =>
      cases ev with
      | eof => exact absurd (hben _ (List.mem_cons_self _ _)) (fun h => h)
      | fail e =>
        have he : e = EAGAIN ∨ e = EINTR := hben _ (List.mem_cons_self _ _)
        obtain ⟨rounds, rfl⟩ : ∃ r1, rounds = r1 + 1 :=
          ⟨rounds - 1, by simp only [List.length_cons] at hrounds; omega⟩
        have hpass := pass_error (L := L) (f := f) (recv_chunk_benign_fail hs he hsz)
        rw [recv_out_again] at hpass
        rw [resume_again hpass]
        refine ih rest j _ fuel rounds ?_ ⟨inv.flags, inv.offset, inv.rcv_end, inv.data, inv.obj⟩
          ⟨hf.self, hf.recv_list, hf.links, hf.freed, hf.refcnt, hf.resets⟩ hj rfl
          (fun e he => hben e (List.mem_cons_of_mem _ he)) hstream ?_ ?_ ?_
        · simp only [List.length_cons, stream] at hm ⊢; omega
        · omega
        · omega
        · simp only [List.length_cons] at hrounds; omega
      | data bs =>
        have hbs : bs ≠ [] := hben _ (List.mem_cons_self _ _)
        have hpre : bs <+: payload.drop j := ⟨stream rest, hstream⟩
        obtain ⟨w1, hchunk, inv1, hf1, _, hsock⟩ := body_chunk hfit inv hj hs hbs hpre
        obtain ⟨hn1, hn2, hn3⟩ := chunk_size_bounds (show 0 < payload.length - j by omega)
          (List.length_pos.mpr hbs)
        generalize min (min (payload.length - j) MAX_RW_COUNT) bs.length = n at *
        by_cases hdone : j + n = payload.length
        · rw [hdone] at inv1
          have hp : payload ≠ [] := by
            intro h0; rw [h0] at hj; simp at hj
          have heq : w1.st.rcv_offset = w1.st.rcv_end := by rw [inv1.offset, inv1.rcv_end]
          rw [resume_done (pass_body_done hchunk heq inv1.flags)]
          have hf01 := hf.trans hf1
          have hq1 : IsQueue w1.links w1.recv_list q := by
            rw [hf01.links, hf01.recv_list]; exact hq
          have ha1 : a ∉ w1.recv_list :: q := by rw [hf01.recv_list]; exact ha
          exact ⟨_, rfl, (recv_complete_spec hc (body_ready inv1 hp) hq1 ha1).1.transfer hf01⟩
        · have hne : w1.st.rcv_offset ≠ w1.st.rcv_end := by
            rw [inv1.offset, inv1.rcv_end]; omega
          rw [resume_continue (pass_continue hchunk hne)]
          have hcost := leftover_cost bs rest hn3 hn1
          refine ih (leftover bs n rest) (j + n) w1 f rounds ?_ inv1 (hf.trans hf1) (by omega)
            hsock (leftover_benign hben) ?_ (by omega) (by omega) (by omega)
          · omega
          · rw [leftover_stream bs rest hn3, hstream, List.drop_drop, Nat.add_comm]

/-- From the awaiting-header phase, the remaining bytes of the message
arriving in any chunks, with `EAGAIN`/`EINTR` failures in between, complete the
request. -/
theorem hdr_run {L : Layout} (wf : L.WF) {w0 : World} {a : Nat} {ms : List Nat}
    {hdr payload q : List Nat} (hh : hdr.length = L.cmd_size)
    (hsz : L.size (L.convert hdr) % 2 ^ 64 = payload.length)
    (hfit : L.req_size + L.cmd_size + payload.length < 2 ^ 64)
    (hq : IsQueue w0.links w0.recv_list q) (ha0 : a ≠ 0) (ha : a ∉ w0.recv_list :: q)
    (fuel : Nat) :
    ∀ (m : Nat) (evs : List SockEvent) (k : Nat) (w : World) (f rounds : Nat),
      evs.length + (stream evs).length ≤ m → HdrInv L (hdr ++ payload) k w → SameFrame w0 w →
      w.mallocs = a :: ms → k < L.cmd_size → w.sock = evs → (∀ e ∈ evs, e.benign) →
      stream evs = (hdr ++ payload).drop k → m ≤ f → m ≤ fuel → evs.length ≤ rounds →
      ∃ res, resume L fuel rounds f w = some res ∧
        Received L w0 a (L.convert hdr) payload q res := by
  have hc : (L.convert hdr).length = L.cmd_size := by rw [wf.convert_len, hh]
  have hfits := wf.fits
  intro m
  induction m with
  | zero =>
    intro evs k w f rounds hm _ _ _ hk _ _ hstream _ _ _
    have h1 : (stream evs).length = 0 := by omega
    rw [hstream, List.length_drop, List.length_append] at h1
    omega
  | succ m ih =>
    intro evs k w f rounds hm inv hf hmal hk hs hben hstream hmf hmfuel hrounds
    have hsize : (w.st.rcv_end + 2 ^ 64 - w.st.rcv_offset) % 2 ^ 64 ≠ 0 := by
      rw [inv.rcv_end, inv.offset, recv_size_eq (by omega) (by omega)]
      omega
    obtain ⟨f, rfl⟩ : ∃ f1, f = f1 + 1 := ⟨f - 1, by omega⟩
    cases evs with
    | nil =>
      have h1 : (stream ([] : List SockEvent)).length = 0 := rfl
      rw [hstream, List.length_drop, List.length_append] at h1
      omega
    | cons ev rest =>
      cases ev with
      | eof => exact absurd (hben _ (List.mem_cons_self _ _)) (fun h => h)
      | fail e =>
        have he : e = EAGAIN ∨ e = EINTR := hben _ (List.mem_cons_self _ _)
        obtain ⟨rounds, rfl⟩ : ∃ r1, rounds = r1 + 1 :=
          ⟨rounds - 1, by simp only [List.length_cons] at hrounds; omega⟩
        have hpass := pass_error (L := L) (f := f) (recv_chunk_benign_fail hs he hsize)
        rw [recv_out_again] at hpass
        rw [resume_again hpass]
        refine ih rest k _ fuel rounds ?_
          ⟨inv.flags, inv.offset, inv.rcv_end, inv.data, inv.len, inv.bytes⟩
          ⟨hf.self, hf.recv_list, hf.links, hf.freed, hf.refcnt, hf.resets⟩ hmal hk rfl
          (fun e he => hben e (List.mem_cons_of_mem _ he)) hstream ?_ ?_ ?_
        · simp only [List.length_cons, stream] at hm ⊢; omega
        · omega
        · omega
        · simp only [List.length_cons] at hrounds; omega
      | data bs =>
        have hbs : bs ≠ [] := hben _ (List.mem_cons_self _ _)
        have hpre : bs <+: (hdr ++ payload).drop k := ⟨stream rest, hstream⟩
        obtain ⟨w1, hchunk, inv1, hf1, hmal1, _, hsock⟩ := hdr_chunk wf inv hk hs hbs hpre
        obtain ⟨hn1, hn2, hn3⟩ := chunk_size_bounds (show 0 < L.cmd_size - k by omega)
          (List.length_pos.mpr hbs)
        generalize min (min (L.cmd_size - k) MAX_RW_COUNT) bs.length = n at *
        have hcost := leftover_cost bs rest hn3 hn1
        have hleft : stream (leftover bs n rest) = (hdr ++ payload).drop (k + n) := by
          rw [leftover_stream bs rest hn3, hstream, List.drop_drop, Nat.add_comm]
        by_cases hdone : k + n = L.cmd_size
        · rw [hdone] at inv1 hleft
          rw [hmal] at hmal1
          have hf01 := hf.trans hf1
          by_cases hp : payload.length = 0
          · have hp0 : payload = [] := List.length_eq_zero.mp hp
            subst hp0
            obtain ⟨w4, hpass, hready, hf4, _, _, _⟩ :=
              pass_header_zero (f := f) wf hchunk inv1 (take_header hh) hh hmal1 ha0 hsz
            rw [resume_done hpass]
            have hf04 := hf01.trans hf4
            have hq4 : IsQueue w4.links w4.recv_list q := by
              rw [hf04.links, hf04.recv_list]; exact hq
            have ha4 : a ∉ w4.recv_list :: q := by rw [hf04.recv_list]; exact ha
            exact ⟨_, rfl, (recv_complete_spec hc hready hq4 ha4).1.transfer hf04⟩
          · obtain ⟨w5, hpass, binv, hf5, _, hsock5, _⟩ :=
              pass_header_body (f := f) wf hchunk inv1 (take_header hh) hh hmal1 ha0 hsz hp hfit
            rw [resume_continue hpass]
            refine body_run hfit hc hq ha fuel m (leftover bs n rest) 0 w5 f rounds ?_ binv
              (hf01.trans hf5) (by omega) (hsock5.trans hsock) (leftover_benign hben) ?_
              (by omega) (by omega) (by omega)
            · omega
            · rw [hleft, ← hh, List.drop_left, List.drop_zero]
        · have hne : w1.st.rcv_offset ≠ w1.st.rcv_end := by
            rw [inv1.offset, inv1.rcv_end]; omega
          rw [resume_continue (pass_continue hchunk hne)]
          exact ih (leftover bs n rest) (k + n) w1 f rounds (by omega) inv1 (hf.trans hf1)
            (hmal1.trans hmal) (by omega) hsock (leftover_benign hben) hleft (by omega)
            (by omega) (by omega)

/-- C1. Framing. A connection awaits a header (its `rcv_cmd` has the size of
`struct dnet_cmd`); its socket delivers the bytes of one header
(`sizeof(struct dnet_cmd)` bytes) followed by a payload whose length is the
size the converted header declares, cut into non-empty chunks in any
way, with any number of `recv` failures with `EAGAIN` or `EINTR` in between
(after which `dnet_process_recv_single` returns `-EAGAIN` and is invoked
again). The buffer for the request can be allocated: its size fits `size_t`
and `malloc` returns an address `a` that is not `NULL` and not in use by the
queue. Then, with enough fuel and invocations, the run returns 0; the inbound
queue, which held `q`, holds `q` followed by the one request at `a`; that
request has `hsize = sizeof(struct dnet_cmd)`, `dsize` = the payload length,
its header bytes are the header after the one conversion, its payload bytes
are the payload, in order; and the connection awaits the next header
(`rcv_flags = DNET_IO_CMD`, `rcv_offset = 0`, `rcv_end` = header size,
`rcv_data = NULL`). -/
theorem recv_reassembles_message (L : Layout) (wf : L.WF) (w : World)
    (hdr payload q : List Nat) (a : Nat) (ms : List Nat) (fuel rounds : Nat)
    (hstate : AwaitingHeader L w.st) (hcmd : w.st.rcv_cmd.length = L.cmd_size)
    (hq : IsQueue w.links w.recv_list q)
    (hh : hdr.length = L.cmd_size) (hp : payload.length = L.size (L.convert hdr))
    (hfit : L.req_size + L.cmd_size + payload.length < 2 ^ 64)
    (hben : ∀ e ∈ w.sock, e.benign) (hstream : stream w.sock = hdr ++ payload)
    (hm : w.mallocs = a :: ms) (ha0 : a ≠ 0) (ha : a ∉ w.recv_list :: q)
    (hfuel : w.sock.length + (hdr ++ payload).length ≤ fuel)
    (hrounds : w.sock.length + 1 ≤ rounds) :
    ∃ res, recv_message L fuel rounds w = some res ∧ res.1 = 0 ∧
      AwaitingHeader L res.2.st ∧
      IsQueue res.2.links w.recv_list (q ++ [a]) ∧
      ∃ r, res.2.heap a = some r ∧ r.hsize = L.cmd_size ∧ r.dsize = payload.length ∧
        req_header a r = L.convert hdr ∧ req_payload a r = payload := by
  obtain ⟨rounds, rfl⟩ : ∃ r1, rounds = r1 + 1 := ⟨rounds - 1, by omega⟩
  have hsz : L.size (L.convert hdr) % 2 ^ 64 = payload.length := by
    rw [← hp, Nat.mod_eq_of_lt (by omega)]
  obtain ⟨hfl, hoff, hend, hdat⟩ := hstate
  have inv : HdrInv L (hdr ++ payload) 0 w := ⟨hfl, hoff, hend, hdat, hcmd, rfl⟩
  obtain ⟨res, hres, hrec⟩ := hdr_run wf hh hsz hfit hq ha0 ha fuel
    (w.sock.length + (hdr ++ payload).length) w.sock 0 w fuel rounds
    (by rw [hstream]) inv ⟨rfl, rfl, rfl, rfl, rfl, rfl⟩ hm wf.cmd_pos rfl hben
    (by rw [hstream, List.drop_zero]) hfuel hfuel (by omega)
  refine ⟨res, hres, hrec.ret, hrec.state, hrec.queue, ?_⟩
  obtain ⟨r, h1, _, h3, h4, _, h6, h7⟩ := hrec.obj
  exact ⟨r, h1, h3, h4, h6, h7⟩

theorem demoLayout_wf : demoLayout.WF :=
  ⟨by decide, by decide, fun _ => rfl⟩

/-- Witness of `recv_reassembles_message`: the scenario of the spec, a 16-byte
header declaring 40 bytes in reads of 5, 3 and 8 bytes, then the payload in
reads of 17 and 23 bytes. -/
theorem recv_reassembles_message_witness :
    ∃ res, recv_message demoLayout 63 8 (demoWorld demoScript [1000]) = some res ∧ res.1 = 0 ∧
      AwaitingHeader demoLayout res.2.st ∧
      IsQueue res.2.links (demoWorld demoScript [1000]).recv_list ([] ++ [1000]) ∧
      ∃ r, res.2.heap 1000 = some r ∧ r.hsize = demoLayout.cmd_size ∧
        r.dsize = demoPayload.length ∧
        req_header 1000 r = demoLayout.convert demoHeader ∧ req_payload 1000 r = demoPayload :=
  recv_reassembles_message demoLayout demoLayout_wf (demoWorld demoScript [1000])
    demoHeader demoPayload [] 1000 [] 63 8 (by decide) (by decide) (by decide) (by decide)
    (by decide) (by decide) (by decide) (by decide) rfl (by decide) (by decide) (by decide)
    (by decide)

/-- C2. Zero-payload messages. The connection awaits a header of which `k`
bytes have arrived, the header declares a payload size of 0, and the bytes
pending on the socket contain the rest of the header. Then the pass of
`dnet_process_recv_single` whose `recv` takes the last header byte also
completes the message (one unit of fuel is enough, so there is no further pass
and no further `recv`: exactly one call was made, and it took only the header
bytes): the function returns 0; the queue, which held `q`, holds `q` followed
by the request at `a`, which has `hsize = sizeof(struct dnet_cmd)`,
`dsize = 0`, a null `data` pointer and the converted header; the connection
awaits the next header. The allocation is assumed to succeed at an address
that is not in use by the queue. -/
theorem zero_payload_completes (L : Layout) (wf : L.WF) (w : World) (hdr q : List Nat)
    (k a : Nat) (ms bs : List Nat) (rest : List SockEvent) (f : Nat)
    (inv : HdrInv L hdr k w) (hk : k < L.cmd_size) (hh : hdr.length = L.cmd_size)
    (hsmall : L.cmd_size ≤ MAX_RW_COUNT)
    (hs : w.sock = .data bs :: rest) (hpre : hdr.drop k <+: bs)
    (hzero : L.size (L.convert hdr) = 0)
    (hq : IsQueue w.links w.recv_list q)
    (hm : w.mallocs = a :: ms) (ha0 : a ≠ 0) (ha : a ∉ w.recv_list :: q) :
    ∃ res, dnet_process_recv_single L (f + 1) w = some res ∧ res.1 = 0 ∧
      res.2.recv_calls = w.recv_calls + 1 ∧
      res.2.sock = leftover bs (L.cmd_size - k) rest ∧
      AwaitingHeader L res.2.st ∧
      IsQueue res.2.links w.recv_list (q ++ [a]) ∧
      ∃ r, res.2.heap a = some r ∧ r.hsize = L.cmd_size ∧ r.dsize = 0 ∧ r.data = 0 ∧
        req_header a r = L.convert hdr ∧ req_payload a r = [] := by
  obtain ⟨t, ht⟩ := hpre
  have hklen : (hdr.take k).length = k := by rw [List.length_take]; omega
  have hdl : (hdr.drop k).length = L.cmd_size - k := by rw [List.length_drop, hh]
  have hbl : bs.length = L.cmd_size - k + t.length := by
    rw [← ht, List.length_append, hdl]
  have hbs : bs ≠ [] := by
    intro h0; rw [h0] at hbl; simp at hbl; omega
  have hmsg : hdr.take k ++ bs = hdr ++ t := by
    rw [← ht, ← List.append_assoc, List.take_append_drop]
  have inv0 : HdrInv L (hdr.take k ++ bs) k w :=
    ⟨inv.flags, inv.offset, inv.rcv_end, inv.data, inv.len, by
      rw [inv.bytes, List.take_left' hklen]⟩
  have hpre0 : bs <+: (hdr.take k ++ bs).drop k := by
    rw [List.drop_left' hklen]
  obtain ⟨w1, hchunk, inv1, hf1, hmal1, hcalls1, hsock1⟩ := hdr_chunk wf inv0 hk hs hbs hpre0
  have hn : min (min (L.cmd_size - k) MAX_RW_COUNT) bs.length = L.cmd_size - k := by
    omega
  rw [hn] at inv1 hsock1
  rw [show k + (L.cmd_size - k) = L.cmd_size by omega] at inv1
  rw [hm] at hmal1
  have htake : (hdr.take k ++ bs).take L.cmd_size = hdr := by
    rw [hmsg]; exact take_header hh
  have hsz : L.size (L.convert hdr) % 2 ^ 64 = 0 := by rw [hzero]; rfl
  obtain ⟨w4, hpass, hready, hf4, _, hsock4, hcalls4⟩ :=
    pass_header_zero (f := f) wf hchunk inv1 htake hh hmal1 ha0 hsz
  have hc : (L.convert hdr).length = L.cmd_size := by rw [wf.convert_len, hh]
  have hf04 := hf1.trans hf4
  have hq4 : IsQueue w4.links w4.recv_list q := by
    rw [hf04.links, hf04.recv_list]; exact hq
  have ha4 : a ∉ w4.recv_list :: q := by rw [hf04.recv_list]; exact ha
  obtain ⟨hrec, hsock, hcalls, _, _⟩ := recv_complete_spec hc hready hq4 ha4
  have hrec0 := hrec.transfer hf04
  refine ⟨_, hpass, hrec0.ret, ?_, ?_, hrec0.state, hrec0.queue, ?_⟩
  · rw [hcalls, hcalls4, hcalls1]
  · rw [hsock, hsock4, hsock1]
  · obtain ⟨r, h1, _, h3, h4, h5, h6, h7⟩ := hrec0.obj
    exact ⟨r, h1, h3, h4, by simpa using h5, h6, h7⟩

/-- Witness of `zero_payload_completes`: ten bytes of a 16-byte header that
declares no payload have arrived, the socket holds the other six and the first
two bytes of the next message. -/
theorem zero_payload_completes_witness :
    ∃ res, dnet_process_recv_single demoLayout 1
        { demoWorld [.data [0, 0, 0, 0, 0, 0, 9, 9]] [1000] with
          st := { refcnt := 1, rcv_cmd := [1, 2, 3, 4, 5, 6, 7, 8, 0, 0, 0, 0, 0, 0, 0, 0],
                  rcv_offset := 10, rcv_end := 16, rcv_flags := DNET_IO_CMD, rcv_data := 0 } }
        = some res ∧ res.1 = 0 ∧
      res.2.recv_calls = 0 + 1 ∧
      res.2.sock = leftover [0, 0, 0, 0, 0, 0, 9, 9] (demoLayout.cmd_size - 10) [] ∧
      AwaitingHeader demoLayout res.2.st ∧
      IsQueue res.2.links 1 ([] ++ [1000]) ∧
      ∃ r, res.2.heap 1000 = some r ∧ r.hsize = demoLayout.cmd_size ∧ r.dsize = 0 ∧
        r.data = 0 ∧
        req_header 1000 r = demoLayout.convert [1, 2, 3, 4, 5, 6, 7, 8, 0, 0, 0, 0, 0, 0, 0, 0] ∧
        req_payload 1000 r = [] :=
  zero_payload_completes demoLayout demoLayout_wf _ [1, 2, 3, 4, 5, 6, 7, 8, 0, 0, 0, 0, 0, 0, 0, 0]
    [] 10 1000 [] [0, 0, 0, 0, 0, 0, 9, 9] [] 0
    ⟨rfl, rfl, rfl, rfl, rfl, by decide⟩ (by decide) (by decide) (by decide) rfl
    ⟨[9, 9], by decide⟩ (by decide) (by decide) rfl (by decide) (by decide)

/-- C3. Peer shutdown or a fatal `recv` error in the awaiting-body phase. The
connection has received a header declaring a payload of which `j` bytes, not
all, have arrived, so `st->rcv_data` is the partial request at `a`. When the
next `recv` returns 0, `dnet_process_recv_single` returns `-ECONNRESET`; when
it fails with an `errno` other than `EAGAIN` and `EINTR`, `-errno`. In both
cases nothing is queued (the links of the queue are untouched), `free` is
called once more, on `a`, which is no longer allocated, and the connection
awaits a header (`rcv_flags = DNET_IO_CMD`, `rcv_offset = 0`, `rcv_end` =
header size, `rcv_data = NULL`). -/
theorem body_failure_resets (L : Layout) (w : World) (a : Nat) (c payload : List Nat)
    (j : Nat) (ev : SockEvent) (rest : List SockEvent) (f : Nat)
    (inv : BodyInv L a c payload j w) (hj : j < payload.length)
    (hfit : L.req_size + L.cmd_size + payload.length < 2 ^ 64) (ha : a ≠ 0)
    (hs : w.sock = ev :: rest)
    (hev : ev = .eof ∨ ∃ e, ev = .fail e ∧ e ≠ EAGAIN ∧ e ≠ EINTR) :
    ∃ w1, dnet_process_recv_single L (f + 1) w = some (fatal_result ev, w1) ∧
      AwaitingHeader L w1.st ∧ w1.links = w.links ∧ w1.freed = w.freed ++ [a] ∧
      w1.heap a = none ∧ w1.recv_calls = w.recv_calls + 1 := by
  have hsz : (w.st.rcv_end + 2 ^ 64 - w.st.rcv_offset) % 2 ^ 64 ≠ 0 := by
    rw [inv.rcv_end, inv.offset, recv_size_eq (by omega) (by omega)]
    omega
  have hdat := inv.data
  rcases hev with rfl | ⟨e, rfl, he1, he2⟩
  · have hchunk : recv_chunk w =
        .error (-ECONNRESET, { w with recv_calls := w.recv_calls + 1 }) := by
      unfold recv_chunk
      simp only [hsz, ne_eq, not_false_eq_true, if_true, recv, hs]
      simp
    refine ⟨_, pass_error hchunk, ?_⟩
    simp [recv_out, ECONNRESET, EAGAIN, EINTR, dnet_schedule_command, free, hdat, ha,
      AwaitingHeader]
  · have hchunk : recv_chunk w =
        .error (-e, { w with recv_calls := w.recv_calls + 1, errno := e, sock := rest }) := by
      unfold recv_chunk
      simp only [hsz, ne_eq, not_false_eq_true, if_true, recv, hs]
      simp [he1, he2]
    have h1 : -e ≠ -EAGAIN := fun h => he1 (neg_injective h)
    have h2 : -e ≠ -EINTR := fun h => he2 (neg_injective h)
    refine ⟨dnet_schedule_command L
      { w with recv_calls := w.recv_calls + 1, errno := e, sock := rest }, ?_, ?_⟩
    · rw [pass_error hchunk]
      simp only [recv_out, ne_eq, h1, h2, not_false_eq_true, and_self, if_true, fatal_result]
    · simp [dnet_schedule_command, free, hdat, ha, AwaitingHeader]

theorem demoBodyWorld_inv (sock : List SockEvent) :
    BodyInv demoLayout 1000 demoHeader demoPayload 0 (demoBodyWorld sock) :=
  ⟨rfl, rfl, rfl, rfl,
    { st := 0, header := 1040, hsize := 16, data := 1056, dsize := 40,
      mem := List.replicate 40 0 ++ demoHeader ++ List.replicate 40 0 },
    rfl, rfl, rfl, rfl, rfl, by decide, by decide, by decide⟩

/-- Witness of `body_failure_resets`: the peer closes after the header of the
spec's scenario. -/
theorem body_failure_resets_witness :
    ∃ w1, dnet_process_recv_single demoLayout 1 (demoBodyWorld [.eof]) =
        some (fatal_result .eof, w1) ∧
      AwaitingHeader demoLayout w1.st ∧ w1.links = (demoBodyWorld [.eof]).links ∧
      w1.freed = (demoBodyWorld [.eof]).freed ++ [1000] ∧
      w1.heap 1000 = none ∧ w1.recv_calls = (demoBodyWorld [.eof]).recv_calls + 1 :=
  body_failure_resets demoLayout (demoBodyWorld [.eof]) 1000 demoHeader demoPayload 0 .eof [] 0
    (demoBodyWorld_inv _) (by decide) (by decide) (by decide) rfl (Or.inl rfl)

/-! ## Facts about the reactor -/

/-- C5. The loop of `dnet_io_process` on a ready descriptor. Whatever the
handler and whatever it returns: if its first results `pre` are not errors
(none is negative) and the next result `e` is an error (negative), the loop
invokes the handler exactly `pre.length + 1` times and stops there, in the
state the last invocation left; when `e` is `-EAGAIN` it does not call
`dnet_state_reset`, and for any other error it calls `dnet_state_reset`
exactly once, after the last invocation. -/
theorem reactor_loop_until_error {σ : Type} (process : σ → Option (Int × σ)) (reset : σ → σ)
    (pre : List Int) (e : Int) (s s1 : σ) (fuel : Nat)
    (hret : Returns process s (pre ++ [e]) s1) (hpre : ∀ r ∈ pre, 0 ≤ r) (he : e < 0)
    (hfuel : pre.length + 1 ≤ fuel) :
    dnet_io_process_fd process reset fuel s =
      some { st := if e = -EAGAIN then s1 else reset s1
             calls := pre.length + 1
             resets := if e = -EAGAIN then 0 else 1 } := by
  induction pre generalizing s fuel with
  | nil =>
    obtain ⟨fuel, rfl⟩ : ∃ f1, fuel = f1 + 1 := ⟨fuel - 1, by simp at hfuel; omega⟩
    obtain ⟨s2, h1, h2⟩ := hret
    have h2 : s2 = s1 := h2
    subst h2
    have he0 : e ≠ 0 := by omega
    by_cases hag : e = -EAGAIN
    · simp [dnet_io_process_fd, h1, hag, EAGAIN]
    · simp [dnet_io_process_fd, h1, hag, he0, he]
  | cons r pre ih =>
    obtain ⟨fuel, rfl⟩ : ∃ f1, fuel = f1 + 1 := ⟨fuel - 1, by simp at hfuel; omega⟩
    obtain ⟨s2, h1, h2⟩ := hret
    have hr : 0 ≤ r := hpre r (List.mem_cons_self _ _)
    have hrest := ih s2 fuel h2 (fun x hx => hpre x (List.mem_cons_of_mem _ hx))
      (by simp only [List.length_cons] at hfuel; omega)
    have hnag : r ≠ -EAGAIN := by simp only [EAGAIN]; omega
    have hnneg : ¬ r < 0 := by omega
    by_cases hr0 : r = 0
    · simp [dnet_io_process_fd, h1, hr0, hrest, LoopOut.again]
    · simp [dnet_io_process_fd, h1, hr0, hnag, hnneg, hrest, LoopOut.again]

/-- Witness of `reactor_loop_until_error`: a handler that succeeds twice and
then fails with `-ECONNRESET`. -/
theorem reactor_loop_until_error_witness :
    dnet_io_process_fd scripted (fun _ => []) 5 [0, 0, -ECONNRESET, 0, -EAGAIN] =
      some { st := if -ECONNRESET = -EAGAIN then [0, -EAGAIN] else (fun _ => []) [0, -EAGAIN]
             calls := [0, 0].length + 1
             resets := if -ECONNRESET = -EAGAIN then 0 else 1 } :=
  reactor_loop_until_error scripted (fun _ => []) [0, 0] (-ECONNRESET)
    [0, 0, -ECONNRESET, 0, -EAGAIN] [0, -EAGAIN] 5
    ⟨_, rfl, _, rfl, _, rfl, rfl⟩ (by decide) (by decide) (by decide)

/-- C4, counterexample. The header of the spec's scenario arrives in one read
and `malloc` fails: `dnet_process_recv_single` returns `-ENOMEM`, and the
reactor's loop on the descriptor, after this single invocation, calls
`dnet_state_reset` on the connection. -/
theorem nomem_not_torn_down_counterexample :
    (dnet_process_recv_single demoLayout 2 (demoWorld [.data demoHeader] [0])).map
        (fun res => res.1) = some (-ENOMEM) ∧
    (dnet_io_process_fd (dnet_state_net_process demoLayout 2 (fun w => (-EAGAIN, w)) EPOLLIN)
        dnet_state_reset 2 (demoWorld [.data demoHeader] [0])).map
        (fun o => (o.calls, o.resets, o.st.resets)) = some (1, 1, 1) := by
  decide

/-- C4, as amended. When the allocation of the request fails after the last
header byte was received, `dnet_process_recv_single` returns `-ENOMEM` and
leaves the connection awaiting a header; the reactor's loop on the descriptor
treats this like any other error: it calls `dnet_state_reset` on the
connection exactly once and stops after this one invocation. -/
theorem nomem_resets_and_tears_down (L : Layout) (wf : L.WF) (w : World) (hdr : List Nat)
    (k : Nat) (bs : List Nat) (rest : List SockEvent) (send : World → Int × World)
    (f fuel : Nat)
    (inv : HdrInv L hdr k w) (hk : k < L.cmd_size) (hh : hdr.length = L.cmd_size)
    (hsmall : L.cmd_size ≤ MAX_RW_COUNT)
    (hs : w.sock = .data bs :: rest) (hpre : hdr.drop k <+: bs)
    (hm : w.mallocs.head? = none ∨ w.mallocs.head? = some 0) :
    ∃ w1, dnet_process_recv_single L (f + 1) w = some (-ENOMEM, w1) ∧
      AwaitingHeader L w1.st ∧ w1.links = w.links ∧ w1.freed = w.freed ∧
      dnet_io_process_fd (dnet_state_net_process L (f + 1) send EPOLLIN) dnet_state_reset
        (fuel + 1) w = some { st := dnet_state_reset w1, calls := 1, resets := 1 } := by
  obtain ⟨t, ht⟩ := hpre
  have hklen : (hdr.take k).length = k := by rw [List.length_take]; omega
  have hdl : (hdr.drop k).length = L.cmd_size - k := by rw [List.length_drop, hh]
  have hbl : bs.length = L.cmd_size - k + t.length := by
    rw [← ht, List.length_append, hdl]
  have hbs : bs ≠ [] := by
    intro h0; rw [h0] at hbl; simp at hbl; omega
  have inv0 : HdrInv L (hdr.take k ++ bs) k w :=
    ⟨inv.flags, inv.offset, inv.rcv_end, inv.data, inv.len, by
      rw [inv.bytes, List.take_left' hklen]⟩
  have hpre0 : bs <+: (hdr.take k ++ bs).drop k := by
    rw [List.drop_left' hklen]
  obtain ⟨w1, hchunk, inv1, hf1, hmal1, _, _⟩ := hdr_chunk wf inv0 hk hs hbs hpre0
  have hn : min (min (L.cmd_size - k) MAX_RW_COUNT) bs.length = L.cmd_size - k := by
    omega
  rw [hn] at inv1
  rw [show k + (L.cmd_size - k) = L.cmd_size by omega] at inv1
  rw [← hmal1] at hm
  obtain ⟨w3, hpass, hd3, _, hl3, hfr3, _, _, _, _, _, _⟩ :=
    pass_header_nomem (f := f) hchunk inv1 hm
  have hout : recv_out L (-ENOMEM) w3 = (-ENOMEM, dnet_schedule_command L w3) := by
    simp [recv_out, ENOMEM, EAGAIN, EINTR]
  rw [hout] at hpass
  refine ⟨dnet_schedule_command L w3, hpass, ?_, ?_, ?_, ?_⟩
  · simp [dnet_schedule_command, AwaitingHeader, hd3]
  · simp [dnet_schedule_command, hd3, hl3, hf1.links]
  · simp [dnet_schedule_command, hd3, hfr3, hf1.freed]
  · have hproc : dnet_state_net_process L (f + 1) send EPOLLIN w =
        some (-ENOMEM, dnet_schedule_command L w3) := by
      have h1 : EPOLLIN &&& EPOLLIN ≠ 0 := by decide
      have h2 : ¬ (EPOLLIN &&& (EPOLLHUP ||| EPOLLERR) ≠ 0) := by decide
      simp only [dnet_state_net_process, h1, ne_eq, not_false_eq_true, if_true, hpass,
        Option.map_some', h2, if_false]
    have h3 : ¬ (-ENOMEM = (0 : Int)) := by decide
    have h4 : ¬ (-ENOMEM = -EAGAIN) := by decide
    have h5 : -ENOMEM < (0 : Int) := by decide
    simp only [dnet_io_process_fd, hproc, h3, h4, h5, if_false, if_true]

/-- Witness of `nomem_resets_and_tears_down`: the header of the spec's
scenario arrives in one read and `malloc` returns `NULL`. -/
theorem nomem_resets_and_tears_down_witness :
    ∃ w1, dnet_process_recv_single demoLayout (0 + 1) (demoWorld [.data demoHeader] [0]) =
        some (-ENOMEM, w1) ∧
      AwaitingHeader demoLayout w1.st ∧ w1.links = (demoWorld [.data demoHeader] [0]).links ∧
      w1.freed = (demoWorld [.data demoHeader] [0]).freed ∧
      dnet_io_process_fd (dnet_state_net_process demoLayout (0 + 1) (fun w => (-EAGAIN, w)) EPOLLIN)
        dnet_state_reset (0 + 1) (demoWorld [.data demoHeader] [0]) =
          some { st := dnet_state_reset w1, calls := 1, resets := 1 } :=
  nomem_resets_and_tears_down demoLayout demoLayout_wf (demoWorld [.data demoHeader] [0])
    demoHeader 0 demoHeader [] (fun w => (-EAGAIN, w)) 0 0
    ⟨rfl, rfl, rfl, rfl, rfl, rfl⟩ (by decide) (by decide) (by decide) rfl ⟨[], by decide⟩
    (Or.inr rfl)

/-! ## Facts about readiness registration and accepting -/

/-- C9. Write-readiness registration is idempotent. Whether or not the write
descriptor is already registered, `dnet_schedule_send` returns 0 when the
kernel reports no other failure, and the descriptor is registered afterwards;
when it was registered already (the `epoll_ctl` call fails with `EEXIST`) the
registrations are left as they were, and a second `dnet_schedule_send` right
after a first one returns 0 and changes no registration. A failure of
`epoll_ctl` with any `errno` other than `EEXIST` is returned as `-errno`
(`EEXIST` itself as 0), and registers nothing. `dnet_unschedule_send` returns
no value; on a descriptor that is not registered it leaves every registration
as it was, so the descriptor stays deregistered. -/
theorem write_readiness_idempotent (w : EpollWorld) (st : NetFds) (e : Int) :
    (dnet_schedule_send w st none).1 = 0 ∧
    ((dnet_schedule_send w st none).2.interest st.write_s).isSome = true ∧
    (w.interest st.write_s = none →
      (dnet_schedule_send w st none).2.interest st.write_s = some EPOLLOUT) ∧
    ((w.interest st.write_s).isSome = true →
      epoll_ctl_add w st.write_s EPOLLOUT none = (-1, { w with errno := EEXIST }) ∧
      (dnet_schedule_send w st none).2.interest = w.interest) ∧
    (dnet_schedule_send (dnet_schedule_send w st none).2 st none).1 = 0 ∧
    (dnet_schedule_send (dnet_schedule_send w st none).2 st none).2.interest =
      (dnet_schedule_send w st none).2.interest ∧
    (dnet_schedule_send w st (some e)).1 = (if e = EEXIST then 0 else -e) ∧
    (dnet_schedule_send w st (some e)).2.interest = w.interest ∧
    (w.interest st.write_s = none →
      (dnet_unschedule_send w st).interest = w.interest ∧
      (dnet_unschedule_send w st).interest st.write_s = none) := by
  have hneg : ∀ x : Int, (-x = -EEXIST) ↔ x = EEXIST := fun x => neg_inj
  refine ⟨?_, ?_, ?_, ?_, ?_, ?_, ?_, ?_, ?_⟩
  · cases h : w.interest st.write_s <;>
      simp [dnet_schedule_send, dnet_schedule_network_io, epoll_ctl_add, h]
  · cases h : w.interest st.write_s <;>
      simp [dnet_schedule_send, dnet_schedule_network_io, epoll_ctl_add, h]
  · intro h
    simp [dnet_schedule_send, dnet_schedule_network_io, epoll_ctl_add, h]
  · intro h
    obtain ⟨ev, hev⟩ := Option.isSome_iff_exists.mp h
    simp [dnet_schedule_send, dnet_schedule_network_io, epoll_ctl_add, hev]
  · cases h : w.interest st.write_s <;>
      simp [dnet_schedule_send, dnet_schedule_network_io, epoll_ctl_add, h]
  · cases h : w.interest st.write_s <;>
      simp [dnet_schedule_send, dnet_schedule_network_io, epoll_ctl_add, h]
  · by_cases he : e = EEXIST <;>
      simp [dnet_schedule_send, dnet_schedule_network_io, epoll_ctl_add, he, hneg]
  · by_cases he : e = EEXIST <;>
      simp [dnet_schedule_send, dnet_schedule_network_io, epoll_ctl_add, he, hneg]
  · intro h
    simp [dnet_unschedule_send, epoll_ctl_del, h]

/-- C10, counterexample. Two connections are pending on the listening socket;
handling one readiness notification calls `accept` three times and leaves no
connection pending. -/
theorem single_accept_counterexample :
    (accept_notification 3 (demoListener [5, 6])).map
        (fun o => (o.calls, o.st.accept_calls, o.st.backlog, o.st.created, o.resets)) =
      some (3, 3, [], [5, 6], 0) := by
  decide

theorem accept_process_ok {w : AcceptWorld} {cs : Int} {rest : List Int}
    (hb : w.backlog = cs :: rest) (hcs : 0 < cs) (hc : w.create_results = []) :
    dnet_state_accept_process w =
      (0, { w with accept_calls := w.accept_calls + 1, backlog := rest,
                   created := w.created ++ [cs] }) := by
  have : ¬ cs ≤ 0 := by omega
  simp [dnet_state_accept_process, accept, hb, this, dnet_state_create, hc]

theorem accept_process_empty {w : AcceptWorld} (hb : w.backlog = []) :
    dnet_state_accept_process w =
      (-EAGAIN, { w with accept_calls := w.accept_calls + 1, errno := EAGAIN }) := by
  simp [dnet_state_accept_process, accept, hb]

/-- With every pending connection accepted and created, one notification
drains the backlog. -/
theorem accept_drains (w : AcceptWorld) (fuel : Nat)
    (hpos : ∀ cs ∈ w.backlog, 0 < cs) (hc : w.create_results = [])
    (hfuel : w.backlog.length + 1 ≤ fuel) :
    (dnet_state_accept_process w).2.accept_calls = w.accept_calls + 1 ∧
    accept_notification fuel w =
      some { st := { w with accept_calls := w.accept_calls + (w.backlog.length + 1)
                            backlog := []
                            errno := EAGAIN
                            created := w.created ++ w.backlog }
             calls := w.backlog.length + 1
             resets := 0 } := by
  constructor
  · cases hb : w.backlog with
    | nil => rw [accept_process_empty hb]
    | cons cs rest =>
      rw [accept_process_ok hb (hpos cs (hb ▸ List.mem_cons_self _ _)) hc]
  · generalize hb : w.backlog = bl
    induction bl generalizing w fuel with
    | nil =>
      obtain ⟨fuel, rfl⟩ : ∃ f1, fuel = f1 + 1 := ⟨fuel - 1, by omega⟩
      have h1 : ¬ (-EAGAIN = (0 : Int)) := by decide
      simp only [accept_notification, dnet_io_process_fd, accept_process_empty hb, h1, if_false,
        if_true, List.length_nil, Nat.zero_add, List.append_nil]
      cases w
      simp only at hb
      subst hb
      rfl
    | cons cs rest ih =>
      obtain ⟨fuel, rfl⟩ : ∃ f1, fuel = f1 + 1 := ⟨fuel - 1, by omega⟩
      have hcs : 0 < cs := hpos cs (hb ▸ List.mem_cons_self _ _)
      have hstep := accept_process_ok hb hcs hc
      have hrest := ih { w with accept_calls := w.accept_calls + 1, backlog := rest,
                                created := w.created ++ [cs] } fuel
        (fun x hx => hpos x (hb ▸ List.mem_cons_of_mem _ hx)) hc
        (by rw [hb] at hfuel; simp only [List.length_cons] at hfuel
            show rest.length + 1 ≤ fuel
            omega) rfl
      simp only [accept_notification] at hrest ⊢
      simp only [dnet_io_process_fd, hstep, if_true, hrest, Option.map_some', LoopOut.again,
        List.length_cons, List.append_assoc, List.singleton_append]
      congr 3
      omega

theorem accept_process_calls (w : AcceptWorld) :
    (dnet_state_accept_process w).2.accept_calls = w.accept_calls + 1 := by
  unfold dnet_state_accept_process accept
  cases hb : w.backlog with
  | nil => simp
  | cons cs rest =>
    simp only
    split
    · rfl
    · unfold dnet_state_create
      simp only
      cases hc : w.create_results with
      | nil => simp
      | cons e rs => by_cases he : e = 0 <;> simp [he]

theorem accept_notification_calls :
    ∀ (fuel : Nat) (w : AcceptWorld) (out : LoopOut AcceptWorld),
      accept_notification fuel w = some out →
      out.st.accept_calls = w.accept_calls + out.calls := by
  intro fuel
  induction fuel with
  | zero => intro w out h; simp [accept_notification, dnet_io_process_fd] at h
  | succ fuel ih =>
    intro w out h
    have h1 := accept_process_calls w
    generalize hp : dnet_state_accept_process w = p at h1
    obtain ⟨err, w1⟩ := p
    simp only at h1
    have hrec : ∀ o, (accept_notification fuel w1).map LoopOut.again = some o →
        o.st.accept_calls = w.accept_calls + o.calls := by
      intro o ho
      cases hr : accept_notification fuel w1 with
      | none => rw [hr] at ho; cases ho
      | some o1 =>
        rw [hr] at ho
        cases ho
        have := ih w1 o1 hr
        show o1.st.accept_calls = w.accept_calls + (o1.calls + 1)
        omega
    simp only [accept_notification, dnet_io_process_fd, hp] at h
    split at h
    · exact hrec out h
    · split at h
      · cases h; exact h1
      · split at h
        · cases h; exact h1
        · exact hrec out h

/-- C10, as amended. Each invocation of `dnet_state_accept_process` calls
`accept` once, and the handling of one readiness notification calls `accept`
as many times as the reactor's loop invokes the handler: the loop invokes it
again after every invocation that returned 0. When every pending connection
gets a descriptor above 0 and every `dnet_state_create` succeeds, one
notification with `n` pending connections makes `n + 1` handler invocations
and `n + 1` calls of `accept`, creates the `n` connections in arrival order
and stops at the `accept` that fails with `EAGAIN`, with none left pending and
the listener not reset. When `dnet_state_create` fails for the first pending
connection with an error other than `-EAGAIN`, one call of `accept` is made,
that socket is closed, the listener is reset once and the other connections
stay pending. -/
theorem accept_until_failure (w : AcceptWorld) :
    (dnet_state_accept_process w).2.accept_calls = w.accept_calls + 1 ∧
    (∀ fuel out, accept_notification fuel w = some out →
      out.st.accept_calls = w.accept_calls + out.calls) ∧
    ((∀ cs ∈ w.backlog, 0 < cs) → w.create_results = [] →
      ∀ fuel, w.backlog.length + 1 ≤ fuel →
      accept_notification fuel w =
        some { st := { w with accept_calls := w.accept_calls + (w.backlog.length + 1)
                              backlog := []
                              errno := EAGAIN
                              created := w.created ++ w.backlog }
               calls := w.backlog.length + 1
               resets := 0 }) ∧
    (∀ cs rest e rs fuel, w.backlog = cs :: rest → 0 < cs → w.create_results = e :: rs →
      e < 0 → e ≠ -EAGAIN →
      accept_notification (fuel + 1) w =
        some { st := { w with accept_calls := w.accept_calls + 1
                              backlog := rest
                              create_results := rs
                              closed := w.closed ++ [cs]
                              resets := w.resets + 1 }
               calls := 1
               resets := 1 }) := by
  refine ⟨accept_process_calls w, fun fuel out h => accept_notification_calls fuel w out h,
    fun hpos hc fuel hfuel => (accept_drains w fuel hpos hc hfuel).2, ?_⟩
  intro cs rest e rs fuel hb hcs hc he hne
  have h1 : ¬ cs ≤ 0 := by omega
  have h2 : ¬ e = 0 := by omega
  have hstep : dnet_state_accept_process w =
      (e, { w with accept_calls := w.accept_calls + 1, backlog := rest, create_results := rs,
                   closed := w.closed ++ [cs] }) := by
    simp [dnet_state_accept_process, accept, hb, h1, dnet_state_create, hc, h2]
  simp only [accept_notification, dnet_io_process_fd, hstep, h2, hne, he, if_false, if_true]

/-- Witness of `accept_until_failure`: two pending connections are both
accepted in one notification, with three calls of `accept`. -/
theorem accept_until_failure_witness :
    accept_notification 3 (demoListener [5, 6]) =
      some { st := { demoListener [5, 6] with
                      accept_calls := (demoListener [5, 6]).accept_calls +
                        ((demoListener [5, 6]).backlog.length + 1)
                      backlog := []
                      errno := EAGAIN
                      created := (demoListener [5, 6]).created ++ (demoListener [5, 6]).backlog }
             calls := (demoListener [5, 6]).backlog.length + 1
             resets := 0 } :=
  (accept_until_failure (demoListener [5, 6])).2.2.1 (by decide) rfl 3 (by decide)

/-! ## Facts about shutdown -/

theorem isQueue_next_first {l : Links} {head x : Nat} {rest : List Nat}
    (h : IsQueue l head (x :: rest)) : l.next x = rest.headD head := by
  cases rest with
  | nil => exact h.2.1.2
  | cons y ys => exact h.2.1.2.1

theorem isQueue_next_head {l : Links} {head : Nat} {xs : List Nat}
    (h : IsQueue l head xs) : l.next head = xs.headD head := by
  cases xs with
  | nil => exact h.2.1
  | cons y ys => exact h.2.1.1

/-- A traversal whose body unlinks the entry it visits goes through every
entry once, in order, and leaves the list empty. -/
theorem for_each_safe_unlink (body : Nat → Links → Links) (head : Nat)
    (hbody : ∀ l x rest, IsQueue l head (x :: rest) → IsQueue (body x l) head rest) :
    ∀ (xs : List Nat) (l : Links) (log : List Nat) (fuel : Nat),
      IsQueue l head xs → xs.length + 1 ≤ fuel →
      ∃ l1, list_for_each_entry_safe body head fuel (l.next head) (l.next (l.next head))
          (l, log) = some (l1, log ++ xs) ∧ IsQueue l1 head [] := by
  intro xs
  induction xs with
  | nil =>
    intro l log fuel h hfuel
    obtain ⟨fuel, rfl⟩ : ∃ f1, fuel = f1 + 1 := ⟨fuel - 1, by omega⟩
    refine ⟨l, ?_, h⟩
    simp [list_for_each_entry_safe, isQueue_nil h]
  | cons x rest ih =>
    intro l log fuel h hfuel
    obtain ⟨fuel, rfl⟩ : ∃ f1, fuel = f1 + 1 :=
      ⟨fuel - 1, by simp only [List.length_cons] at hfuel; omega⟩
    have hfirst := isQueue_first h
    have h1 := hbody l x rest h
    obtain ⟨l1, hl1, hq1⟩ := ih (body x l) (log ++ [x]) fuel h1
      (by simp only [List.length_cons] at hfuel; omega)
    refine ⟨l1, ?_, hq1⟩
    have hn : l.next x = (body x l).next head := by
      rw [isQueue_next_first h, isQueue_next_head h1]
    simp only [list_for_each_entry_safe, hfirst.1, hfirst.2, if_false, hn]
    rw [hl1]
    simp

/-- A traversal whose body leaves the links alone goes through every entry
once, in order. -/
theorem for_each_safe_keep (head : Nat) :
    ∀ (xs : List Nat) (l : Links) (log : List Nat) (fuel : Nat),
      IsQueue l head xs → xs.length + 1 ≤ fuel →
      list_for_each_entry_safe (fun _ l0 => l0) head fuel (l.next head) (l.next (l.next head))
          (l, log) = some (l, log ++ xs) := by
  have key : ∀ (rest : List Nat) (pos : Nat) (l : Links) (log : List Nat) (fuel : Nat),
      Path l.next pos rest head → head ∉ pos :: rest → rest.length + 2 ≤ fuel →
      list_for_each_entry_safe (fun _ l0 => l0) head fuel pos (l.next pos) (l, log) =
        some (l, log ++ pos :: rest) := by
    intro rest
    induction rest with
    | nil =>
      intro pos l log fuel hp hh hfuel
      obtain ⟨fuel, rfl⟩ : ∃ f1, fuel = f1 + 2 := ⟨fuel - 2, by simp at hfuel; omega⟩
      have hne : pos ≠ head := fun e => hh (e ▸ List.mem_cons_self _ _)
      have hp1 : l.next pos = head := hp
      simp [list_for_each_entry_safe, hne, hp1]
    | cons y ys ih =>
      intro pos l log fuel hp hh hfuel
      obtain ⟨fuel, rfl⟩ : ∃ f1, fuel = f1 + 1 :=
        ⟨fuel - 1, by simp only [List.length_cons] at hfuel; omega⟩
      have hne : pos ≠ head := fun e => hh (e ▸ List.mem_cons_self _ _)
      have hrec := ih y l (log ++ [pos]) fuel hp.2
        (fun hm => hh (List.mem_cons_of_mem _ hm))
        (by simp only [List.length_cons] at hfuel; omega)
      simp only [list_for_each_entry_safe, hne, if_false, hp.1]
      rw [hrec]
      simp
  intro xs l log fuel h hfuel
  cases xs with
  | nil =>
    obtain ⟨fuel, rfl⟩ : ∃ f1, fuel = f1 + 1 := ⟨fuel - 1, by omega⟩
    simp [list_for_each_entry_safe, isQueue_nil h]
  | cons x rest =>
    have hfirst := isQueue_first h
    rw [hfirst.1]
    exact key rest x l log fuel h.2.1.2 (List.nodup_cons.mp h.1).1
      (by simp only [List.length_cons] at hfuel; omega)

/-- C8. Shutdown drains cleanly. Whatever connections `states` the node still
tracks and whatever requests `reqs` are left on the inbound queue when
`dnet_io_exit` runs, and whether or not `dnet_state_reset` takes a connection
off the node's list: with enough fuel `dnet_io_exit` returns, it has called
`dnet_state_reset` on exactly the tracked connections, each once, in list
order, it has freed exactly the queued requests, each once, in queue order,
and the inbound queue is empty. -/
theorem exit_drains (unlinks : Bool) (storage_state_list recv_list fuel : Nat) (w : ExitWorld)
    (states reqs : List Nat)
    (hs : IsQueue w.states storage_state_list states) (hr : IsQueue w.recv recv_list reqs)
    (hf1 : states.length + 1 ≤ fuel) (hf2 : reqs.length + 1 ≤ fuel) :
    ∃ w1, dnet_io_exit unlinks storage_state_list recv_list fuel w = some w1 ∧
      w1.reset_log = w.reset_log ++ states ∧ states.Nodup ∧
      w1.free_log = w.free_log ++ reqs ∧ reqs.Nodup ∧
      IsQueue w1.recv recv_list [] := by
  have hsn : states.Nodup := (List.nodup_cons.mp hs.1).2
  have hrn : reqs.Nodup := (List.nodup_cons.mp hr.1).2
  obtain ⟨l2, hl2, hq2⟩ := for_each_safe_unlink list_del recv_list
    (fun _ _ _ h => list_del_first h) reqs w.recv w.free_log fuel hr hf2
  cases unlinks with
  | false =>
    have h1 := for_each_safe_keep storage_state_list states w.states w.reset_log fuel hs hf1
    refine ⟨{ w with reset_log := w.reset_log ++ states, epoll_closed := true, recv := l2,
                     free_log := w.free_log ++ reqs }, ?_, rfl, hsn, rfl, hrn, hq2⟩
    simp only [dnet_io_exit, dnet_io_cleanup_states, Bool.false_eq_true, if_false, h1,
      Option.map_some', hl2]
  | true =>
    obtain ⟨l1, hl1, _⟩ := for_each_safe_unlink (fun st l => list_del_init st l)
      storage_state_list (fun _ _ _ h => list_del_init_first h) states w.states w.reset_log
      fuel hs hf1
    refine ⟨{ w with states := l1, reset_log := w.reset_log ++ states, epoll_closed := true,
                     recv := l2, free_log := w.free_log ++ reqs }, ?_, rfl, hsn, rfl, hrn, hq2⟩
    simp only [dnet_io_exit, dnet_io_cleanup_states, if_true, hl1, Option.map_some', hl2]

/-- Witness of `exit_drains`: two tracked connections, three queued
requests. -/
theorem exit_drains_witness :
    ∃ w1, dnet_io_exit true 1 2 4 demoExit = some w1 ∧
      w1.reset_log = demoExit.reset_log ++ [11, 12] ∧ [11, 12].Nodup ∧
      w1.free_log = demoExit.free_log ++ [21, 22, 23] ∧ [21, 22, 23].Nodup ∧
      IsQueue w1.recv 2 [] :=
  exit_drains true 1 2 4 demoExit [11, 12] [21, 22, 23] (by decide) (by decide) (by decide)
    (by decide)

/-! ## The receive cursor -/

/-- C6, the failing input. A connection in the reset state receives, in one
read, a header whose size field is `0xffffffffffffffff`. The size passed to
`malloc` wraps to 55 bytes, one less than the 56 bytes of
`struct dnet_io_req` and `struct dnet_cmd` together, and
`dnet_process_recv_single` leaves the connection with `rcv_offset = 56` and
`rcv_end = 55`: the cursor is past its end. -/
theorem cursor_overflow_at_huge_size :
    (dnet_process_recv_single demoLayout 2 (demoWorld [.data demoHugeHeader] [1000])).map
        (fun res => (res.1, res.2.st.rcv_offset, res.2.st.rcv_end, res.2.malloc_log)) =
      some (-EAGAIN, 56, 55, [55]) ∧
    demoLayout.size (demoLayout.convert demoHugeHeader) = 2 ^ 64 - 1 ∧
    AwaitingHeader demoLayout (demoWorld [.data demoHugeHeader] [1000]).st := by
  decide

theorem store_cursor (w : World) (d : Dest) (bs : List Nat) :
    (w.store d bs).st.rcv_offset = w.st.rcv_offset ∧ (w.store d bs).st.rcv_end = w.st.rcv_end := by
  cases d with
  | cmd off => exact ⟨rfl, rfl⟩
  | obj ptr off =>
    simp only [World.store]
    cases w.heap ptr <;> exact ⟨rfl, rfl⟩

theorem recv_cursor (w : World) (d : Dest) (size : Nat) :
    (recv w d size).2.st.rcv_offset = w.st.rcv_offset ∧
    (recv w d size).2.st.rcv_end = w.st.rcv_end ∧
    (recv w d size).1 ≤ size := by
  unfold recv
  cases hs : w.sock with
  | nil => exact ⟨rfl, rfl, by simp; omega⟩
  | cons ev rest =>
    cases ev with
    | fail e => exact ⟨rfl, rfl, by simp; omega⟩
    | eof => exact ⟨rfl, rfl, by simp⟩
    | data bs =>
      simp only [hs]
      refine ⟨(store_cursor _ _ _).1, (store_cursor _ _ _).2, ?_⟩
      have : min (min size MAX_RW_COUNT) bs.length ≤ size := by omega
      exact_mod_cast this

/-- The receive step keeps the cursor within its bounds. -/
theorem recv_chunk_cursor {w : World} (h : CursorOk w.st) :
    (∀ w1, recv_chunk w = .ok w1 → CursorOk w1.st) ∧
    (∀ e w1, recv_chunk w = .error (e, w1) → CursorOk w1.st) := by
  obtain ⟨h1, h2⟩ := h
  have hsize : (w.st.rcv_end + 2 ^ 64 - w.st.rcv_offset) % 2 ^ 64 =
      w.st.rcv_end - w.st.rcv_offset := recv_size_eq h1 h2
  unfold recv_chunk
  simp only [hsize]
  generalize (if w.st.rcv_flags &&& DNET_IO_CMD ≠ 0 then Dest.cmd w.st.rcv_offset
      else Dest.obj w.st.rcv_data w.st.rcv_offset) = d
  obtain ⟨ho, he, hle⟩ := recv_cursor w d (w.st.rcv_end - w.st.rcv_offset)
  generalize recv w d (w.st.rcv_end - w.st.rcv_offset) = res at ho he hle
  obtain ⟨err, w1⟩ := res
  simp only at ho he hle ⊢
  have hsame : CursorOk w1.st := ⟨by rw [ho, he]; exact h1, by rw [he]; exact h2⟩
  by_cases hz : w.st.rcv_end - w.st.rcv_offset = 0
  · simp only [hz, ne_eq, not_true_eq_false, if_false, Except.ok.injEq, forall_eq',
      reduceCtorEq, false_implies, implies_true, and_true]
    exact ⟨h1, h2⟩
  · simp only [hz, ne_eq, not_false_eq_true, if_true]
    by_cases hneg : err < 0
    · simp only [hneg, if_true]
      constructor
      · intro w2 hw2
        split at hw2 <;> cases hw2
      · intro e w2 hw2
        split at hw2 <;> (cases hw2; exact hsame)
    · simp only [hneg, if_false]
      by_cases h0 : err = 0
      · simp only [h0, if_true]
        constructor
        · intro w2 hw2; cases hw2
        · intro e w2 hw2; cases hw2; exact hsame
      · simp only [h0, if_false]
        constructor
        · intro w2 hw2
          cases hw2
          have hpos : 0 ≤ err := by omega
          have hnat : (err.toNat : Int) = err := Int.toNat_of_nonneg hpos
          have hle2 : err.toNat ≤ w.st.rcv_end - w.st.rcv_offset := by omega
          refine ⟨?_, by show w1.st.rcv_end < _; rw [he]; exact h2⟩
          show (w1.st.rcv_offset + err.toNat) % 2 ^ 64 ≤ w1.st.rcv_end
          rw [ho, he, Nat.mod_eq_of_lt (by omega)]
          omega
        · intro e w2 hw2; cases hw2

theorem schedule_command_cursor (L : Layout) (hL : L.cmd_size < 2 ^ 64) (w : World) :
    CursorOk (dnet_schedule_command L w).st := by
  unfold dnet_schedule_command CursorOk
  exact ⟨Nat.zero_le _, hL⟩

theorem recv_out_cursor (L : Layout) (hL : L.cmd_size < 2 ^ 64) (err : Int) {w : World}
    (h : CursorOk w.st) : CursorOk (recv_out L err w).2.st := by
  unfold recv_out
  split
  · exact schedule_command_cursor L hL w
  · exact h

theorem recv_complete_cursor (L : Layout) (hL : L.cmd_size < 2 ^ 64) (w : World) :
    CursorOk (recv_complete L w).2.st := by
  have := schedule_command_cursor L hL { w with st := { w.st with rcv_data := 0 } }
  exact this

/-- C6, what does hold. When no header can declare a size that makes
`sizeof(struct dnet_io_req) + sizeof(struct dnet_cmd) + size` leave the range
of `size_t`, every invocation of `dnet_process_recv_single` that starts with
the cursor within its bounds ends with the cursor within its bounds, whatever
the socket and the allocator do. -/
theorem cursor_ok_without_overflow (L : Layout)
    (hbound : ∀ c, L.req_size + L.cmd_size + L.size c % 2 ^ 64 < 2 ^ 64) :
    ∀ (fuel : Nat) (w : World) (res : Int × World), CursorOk w.st →
      dnet_process_recv_single L fuel w = some res → CursorOk res.2.st := by
  have hL : L.cmd_size < 2 ^ 64 := by have := hbound []; omega
  intro fuel
  induction fuel with
  | zero => intro w res _ h; simp [dnet_process_recv_single] at h
  | succ fuel ih =>
    intro w res hw h
    obtain ⟨hok, herr⟩ := recv_chunk_cursor hw
    unfold dnet_process_recv_single at h
    cases hc : recv_chunk w with
    | error p =>
      obtain ⟨err, w1⟩ := p
      rw [hc] at h
      simp only [Option.some.injEq] at h
      rw [← h]
      exact recv_out_cursor L hL err (herr err w1 hc)
    | ok w1 =>
      have hchunk := hok w1 hc
      rw [hc] at h
      simp only at h
      split at h
      · exact ih w1 res hchunk h
      · split at h
        · -- header complete
          generalize hm : malloc _ _ = m at h
          obtain ⟨r, w3⟩ := m
          simp only at h
          have hw3 : w3.st.rcv_end = w1.st.rcv_end ∧ w3.st.rcv_offset = w1.st.rcv_offset := by
            unfold malloc at hm
            split at hm <;> (cases hm; exact ⟨rfl, rfl⟩)
          split at h
          · simp only [Option.some.injEq] at h
            rw [← h]
            exact recv_out_cursor L hL _ ⟨by rw [hw3.1, hw3.2]; exact hchunk.1,
              by rw [hw3.1]; exact hchunk.2⟩
          · have hb := hbound (L.convert w1.st.rcv_cmd)
            split at h
            · refine ih _ res ?_ h
              refine ⟨?_, Nat.mod_lt _ (by norm_num)⟩
              show (L.req_size + L.cmd_size) % 2 ^ 64 ≤
                ((L.req_size + L.cmd_size) % 2 ^ 64 + L.size (L.convert w1.st.rcv_cmd) % 2 ^ 64)
                  % 2 ^ 64
              rw [Nat.mod_eq_of_lt (by omega), Nat.mod_eq_of_lt hb]
              omega
            · simp only [Option.some.injEq] at h
              rw [← h]
              exact recv_complete_cursor L hL _
        · simp only [Option.some.injEq] at h
          rw [← h]
          exact recv_complete_cursor L hL _

/-- Witness of `cursor_ok_without_overflow`: with 32-bit payload sizes the
bound holds, and the header that breaks `demoLayout` leaves the cursor within
its bounds. -/
theorem cursor_ok_without_overflow_witness :
    ∀ res, dnet_process_recv_single narrowLayout 2 (demoWorld [.data demoHugeHeader] [1000]) =
      some res → CursorOk res.2.st :=
  fun res h => cursor_ok_without_overflow narrowLayout
    (fun c => by
      have h1 : narrowLayout.size c < 2 ^ 32 := Nat.mod_lt _ (by norm_num)
      have h2 : narrowLayout.size c % 2 ^ 64 ≤ narrowLayout.size c := Nat.mod_le _ _
      show 40 + 16 + narrowLayout.size c % 2 ^ 64 < 2 ^ 64
      omega)
    2 _ res ⟨by decide, by decide⟩ h

end Elliptics
